import Mathlib

/-!
Formal model of the `hashsplit` Go package (file `hashsplit.go`):
a content-defined streaming splitter (`Splitter.Write` / `Splitter.Close` /
`Splitter.checkSplit`), a hashsplit tree builder (`TreeBuilder.Add` /
`TreeBuilder.Root`), and offset-indexed lookup (`Seek`).

Modelling conventions:
* Bytes are `Nat` (the byte range is irrelevant to the properties proved).
* The rolling checksum (`buzhash32`) is abstracted as a function `Digest`
  from the full sequence of bytes ever rolled into the window to the
  current 32-bit digest value.  All theorems quantify over this function,
  so they hold for `buzhash32` in particular.  `NewSplitter` initializes
  the window by rolling 64 zero bytes, which is reflected in the initial
  rolled history.
* Go `uint64` sizes/offsets and `uint` levels are modelled as `Nat`
  (overflow is unreachable for in-memory byte sequences).
* The chunk callback `Splitter.f` is modelled as a pure collector: a run
  returns the list of `(chunk, level)` pairs the callback was invoked on,
  in invocation order.
-/

namespace Hashsplit

/-- Model of Go `bits.TrailingZeros32`, applied to a digest value reduced
to 32 bits: the number of trailing zero bits, and 32 when the value is 0. -/
def tzAux : Nat → Nat → Nat
  | 0, _ => 0
  | fuel + 1, h => if h % 2 = 1 then 0 else 1 + tzAux fuel (h / 2)

/-- Trailing zero bits of a 32-bit value (`bits.TrailingZeros32` in Go). -/
def tz32 (h : Nat) : Nat := tzAux 32 (h % 2 ^ 32)

/-- Abstract rolling checksum: the digest as a function of every byte ever
rolled into the checksum state (`buzhash32.Sum32` after those `Roll`s). -/
abbrev Digest := List Nat → Nat

/-- The exported configuration of `Splitter`: `MinSize` (Go `int`) and
`SplitBits` (Go `uint`). -/
structure SpCfg where
  minSize : Int
  splitBits : Nat
deriving DecidableEq, Repr

/-- Effective minimum size: `Write` replaces `MinSize <= 0` by the default 64. -/
def SpCfg.effMin (c : SpCfg) : Nat := if c.minSize ≤ 0 then 64 else c.minSize.toNat

/-- Effective split bits: `checkSplit` replaces `SplitBits == 0` by the default 13. -/
def SpCfg.effBits (c : SpCfg) : Nat := if c.splitBits = 0 then 13 else c.splitBits

/-- Mutable state of a `Splitter`: the chunk being built, and the history of
bytes rolled into the checksum (abstracting the `buzhash32` state). -/
structure SpState where
  chunk : List Nat
  rolled : List Nat
deriving DecidableEq, Repr

/-- State of a fresh `Splitter` from `NewSplitter`: empty chunk, checksum
window initialized with 64 zero bytes. -/
def initSp : SpState := ⟨[], List.replicate 64 0⟩

/-- Model of `Splitter.checkSplit`: returns the level and whether the current
digest has at least `SplitBits` trailing zero bits (`tz` in the Go code is
`tz32 (d st.rolled)`). -/
def checkSplit (c : SpCfg) (d : Digest) (st : SpState) : Nat × Bool :=
  if c.effBits ≤ tz32 (d st.rolled) then (tz32 (d st.rolled) - c.effBits, true)
  else (0, false)

/-- One iteration of the loop body of `Splitter.Write`: append the byte to the
chunk, roll it into the checksum, and emit the chunk if the minimum size is
reached and `checkSplit` fires. -/
def writeByte (c : SpCfg) (d : Digest) (st : SpState) (b : Nat) :
    SpState × Option (List Nat × Nat) :=
  if (st.chunk ++ [b]).length < c.effMin then (⟨st.chunk ++ [b], st.rolled ++ [b]⟩, none)
  else
    match checkSplit c d ⟨st.chunk ++ [b], st.rolled ++ [b]⟩ with
    | (lv, true) => (⟨[], st.rolled ++ [b]⟩, some (st.chunk ++ [b], lv))
    | (_, false) => (⟨st.chunk ++ [b], st.rolled ++ [b]⟩, none)

/-- Model of one call `Splitter.Write(bs)`: run the loop body over the bytes,
collecting the emitted `(chunk, level)` pairs in order. -/
def writeRun (c : SpCfg) (d : Digest) (st : SpState) :
    List Nat → SpState × List (List Nat × Nat)
  | [] => (st, [])
  | b :: bs =>
    match writeByte c d st b with
    | (st1, none) => writeRun c d st1 bs
    | (st1, some e) =>
      let r := writeRun c d st1 bs
      (r.1, e :: r.2)

/-- A sequence of `Splitter.Write` calls, one per part, collecting every
emitted `(chunk, level)` pair in order. -/
def writeParts (c : SpCfg) (d : Digest) (st : SpState) :
    List (List Nat) → SpState × List (List Nat × Nat)
  | [] => (st, [])
  | p :: ps =>
    let r1 := writeRun c d st p
    let r2 := writeParts c d r1.1 ps
    (r2.1, r1.2 ++ r2.2)

/-- Model of `Splitter.Close`: if the buffered chunk is non-empty, emit it
with the level computed by `checkSplit` (ignoring the boolean), then clear
the buffer.  `Close` clears the buffer even when the callback errors. -/
def closeSp (c : SpCfg) (d : Digest) (st : SpState) :
    SpState × List (List Nat × Nat) :=
  if st.chunk = [] then (st, [])
  else (⟨[], st.rolled⟩, [(st.chunk, (checkSplit c d st).1)])

/-- Full run of the splitter on a partitioned input: a fresh splitter, one
`Write` call per part, then `Close`; result is every `(chunk, level)` pair
the callback was invoked on, in order. -/
def splitterOutput (c : SpCfg) (d : Digest) (parts : List (List Nat)) :
    List (List Nat × Nat) :=
  (writeParts c d initSp parts).2 ++ (closeSp c d (writeParts c d initSp parts).1).2

/-!
Tree builder.  `TreeBuilderNode` (the concrete `Node` used when the
transform `TreeBuilder.F` is nil) is a node with a list of child nodes, a
list of chunk byte slices, and `size`/`offset` counters.
-/

/-- Model of `TreeBuilderNode` (with `F` nil, every `Node` in the tree has
this concrete type): child nodes, chunks, size, offset. -/
inductive TBNode : Type where
  | mk : List TBNode → List (List Nat) → Nat → Nat → TBNode

/-- The `Nodes` field (children); `NumChildren` is its length and `Child i`
its `i`-th entry. -/
def TBNode.nodes : TBNode → List TBNode
  | .mk ns _ _ _ => ns

/-- The `Chunks` field. -/
def TBNode.chunks : TBNode → List (List Nat)
  | .mk _ ch _ _ => ch

/-- The `size` field (`Node.Size`). -/
def TBNode.size : TBNode → Nat
  | .mk _ _ sz _ => sz

/-- The `offset` field (`Node.Offset`). -/
def TBNode.offset : TBNode → Nat
  | .mk _ _ _ off => off

/-- The cascade loop of `TreeBuilder.Add` (`for i := 0; i < level; i++`),
operating on the suffix of `tb.levels` from index `i` upward: `cur` is
`tb.levels[i]`, `rest` is `tb.levels[i+1:]`.  When `cur` is the top, a new
top node is allocated with the current accumulated size; then `cur` is
attached as the next child of the node above, and replaced by a fresh empty
node whose offset lies just past its parent's span. -/
def cascade : TBNode → List TBNode → Nat → List TBNode
  | cur, rest, 0 => cur :: rest
  | cur, [], lv + 1 =>
    let top := TBNode.mk [cur] [] cur.size 0
    TBNode.mk [] [] 0 (top.offset + top.size) :: cascade top [] lv
  | cur, nx :: rest, lv + 1 =>
    let nx1 := TBNode.mk (nx.nodes ++ [cur]) nx.chunks nx.size nx.offset
    TBNode.mk [] [] 0 (nx1.offset + nx1.size) :: cascade nx1 rest lv

/-- Model of `TreeBuilder.Add(bytes, level)` with `F` nil: ensure `levels`
is non-empty, append the chunk to `levels[0].Chunks`, add its length to
every open node's size, then run the cascade loop. -/
def addChunk (levels : List TBNode) (bytes : List Nat) (level : Nat) : List TBNode :=
  match (if levels.isEmpty then [TBNode.mk [] [] 0 0] else levels) with
  | [] => []
  | l0 :: rest =>
    let withChunk := TBNode.mk l0.nodes (l0.chunks ++ [bytes]) l0.size l0.offset :: rest
    match withChunk.map (fun n => TBNode.mk n.nodes n.chunks (n.size + bytes.length) n.offset) with
    | [] => []
    | c0 :: r => cascade c0 r level

/-- A sequence of `Add` calls on a `TreeBuilder`, starting from the given
`levels` state (`[]` for a zero-value `TreeBuilder`). -/
def addAll (levels : List TBNode) : List (List Nat × Nat) → List TBNode
  | [] => levels
  | p :: ps => addAll (addChunk levels p.1 p.2) ps

/-- Total number of bytes in a sequence of `Add` calls. -/
def totalLen (pairs : List (List Nat × Nat)) : Nat :=
  (pairs.map (fun p => p.1.length)).sum

/-- Last element of the non-empty list `x :: l` (used for `tb.levels[len-1]`). -/
def lastN : TBNode → List TBNode → TBNode
  | x, [] => x
  | _, y :: ys => lastN y ys

/-- The finalization loop of `TreeBuilder.Root` (with `F` nil): attach
`levels[i]` as the final child of `levels[i+1]` for `i = 0 .. len-2`,
returning the resulting top node. -/
def finalAttach : TBNode → List TBNode → TBNode
  | cur, [] => cur
  | cur, nx :: rest => finalAttach (TBNode.mk (nx.nodes ++ [cur]) nx.chunks nx.size nx.offset) rest

/-- The singleton-pruning loop of `TreeBuilder.Root`:
`for root.NumChildren() == 1 { root = root.Child(0) }`. -/
def descend : TBNode → TBNode
  | .mk [] ch sz off => .mk [] ch sz off
  | .mk [c] _ _ _ => descend c
  | .mk (c1 :: c2 :: cs) ch sz off => .mk (c1 :: c2 :: cs) ch sz off

/-- Model of `TreeBuilder.Root` with `F` nil.  Empty tree: nil `Node`
(`none`).  The finalization loop runs only when `levels[0].Chunks` is
non-empty.  With a single level, `levels[0]` is returned; otherwise the
top node is returned if it has more than one child, else the pruning
descent from the top. -/
def rootOf (levels : List TBNode) : Option TBNode :=
  match levels with
  | [] => none
  | [l0] => some l0
  | l0 :: nx :: rest =>
    let top := if l0.chunks.isEmpty then lastN nx rest else finalAttach l0 (nx :: rest)
    if 1 < top.nodes.length then some top else some (descend top)

mutual

/-- Left-to-right walk of a tree concatenating chunk byte slices (the
`TreeNode.AllChunks` walk: chunks first, then children in order). -/
def treeBytes : TBNode → List Nat
  | .mk ns ch _ _ => ch.flatten ++ treeBytesList ns

/-- Walk of a list of sibling nodes, left to right. -/
def treeBytesList : List TBNode → List Nat
  | [] => []
  | c :: cs => treeBytes c ++ treeBytesList cs

end

mutual

/-- The level-0 (childless) nodes of a tree, in left-to-right order. -/
def leavesOf : TBNode → List TBNode
  | .mk [] ch sz off => [TBNode.mk [] ch sz off]
  | .mk (c :: cs) _ _ _ => leavesList (c :: cs)

/-- The level-0 nodes of a list of sibling subtrees, in order. -/
def leavesList : List TBNode → List TBNode
  | [] => []
  | c :: cs => leavesOf c ++ leavesList cs

end

mutual

/-- Model of `Seek(n, pos)` on a tree of `TreeBuilderNode`s (whose `Child`
never errors): out-of-range positions give `none` (the `ErrNotFound`
return), a childless node returns itself, and otherwise the children are
scanned in order, skipping while `pos >= child.Offset()+child.Size()`. -/
def seekNode : TBNode → Nat → Option TBNode
  | .mk ns ch sz off, pos =>
    if pos < off ∨ off + sz ≤ pos then none
    else
      match ns with
      | [] => some (.mk [] ch sz off)
      | c :: cs => seekKids (c :: cs) pos

/-- The child-scanning loop of `Seek`, including the final fallthrough
`return nil, ErrNotFound` when no child's range reaches `pos`. -/
def seekKids : List TBNode → Nat → Option TBNode
  | [], _ => none
  | c :: cs, pos => if c.offset + c.size ≤ pos then seekKids cs pos else seekNode c pos

end

/-- Outcome of calling `Seek` on the result of `Root`: `notFound` is the
`ErrNotFound` error; `nilDeref` models the Go runtime panic from invoking a
method on the nil `Node` interface returned by `Root` for an empty tree. -/
inductive SeekFailure : Type where
  | notFound
  | nilDeref
deriving DecidableEq, Repr

/-- `Seek` applied to a `Root` result: on the nil `Node` (empty tree)
`Seek`'s first statement `pos < n.Offset()` dereferences the nil interface,
a runtime panic (`nilDeref`), not `ErrNotFound`. -/
def seekRoot (root : Option TBNode) (pos : Nat) : Except SeekFailure TBNode :=
  match root with
  | none => .error .nilDeref
  | some n =>
    match seekNode n pos with
    | some m => .ok m
    | none => .error .notFound

mutual

/-- A node is solid when it is non-empty (it has children or chunks) and,
recursively, all of its children are solid.  Every node the builder ever
attaches as a child is solid. -/
def solidB : TBNode → Bool
  | .mk ns ch _ _ => (!ns.isEmpty || !ch.isEmpty) && solidList ns

/-- All nodes of a list are solid. -/
def solidList : List TBNode → Bool
  | [] => true
  | c :: cs => solidB c && solidList cs

end

/-- Invariant of the `tb.levels` array between `Add` calls: it is non-empty;
every already-attached subtree is solid; with a single level, the open leaf
holds at least one chunk; with at least two levels, the top node has at
least one child; and the open leaf `levels[0]` never has children. -/
def InvP : List TBNode → Prop
  | [] => False
  | l0 :: rest =>
    (∀ n ∈ l0 :: rest, solidList n.nodes = true) ∧
    (rest = [] → l0.chunks ≠ []) ∧
    (∀ m, (l0 :: rest).getLast? = some m → rest ≠ [] → m.nodes ≠ []) ∧
    l0.nodes = []

/-- Check that a list of children tiles the offsets starting at `cur`
contiguously (each child's offset is the running total), returning the
position one past the last child. -/
def tileChk (cur : Nat) : List TBNode → Option Nat
  | [] => some cur
  | c :: cs => if c.offset = cur then tileChk (cur + c.size) cs else none

mutual

/-- Well-formed tree (the shape `Seek` relies on, and the tree-node
invariants of the specification): a childless node carries at least one
chunk; an interior node's children tile exactly the interval from its
offset to its offset plus its size, and are themselves well-formed. -/
def wfb : TBNode → Bool
  | .mk [] ch _ _ => !ch.isEmpty
  | .mk (c :: cs) _ sz off => (tileChk off (c :: cs) == some (off + sz)) && wfbList (c :: cs)

/-- All nodes of a list are well-formed. -/
def wfbList : List TBNode → Bool
  | [] => true
  | c :: cs => wfb c && wfbList cs

end

/-- Configuration of the max-size-capable splitter, with defaults already
resolved (`split_bits` 13, `min_size` 0, `max_size` 0 meaning unbounded). -/
structure SpMaxCfg where
  minSize : Nat
  splitBits : Nat
  maxSize : Nat
deriving DecidableEq, Repr

/-- Modelled from the spec: one byte step of the historical max-size-capable
`Splitter` variant, whose implementation is missing from the sources (only
its test harness, which sets `s.MaxSize`, survives).  Following the
specification's operation steps: append the byte to the chunk and roll it;
if the chunk is shorter than `min_size`, continue; otherwise emit when the
digest has at least `split_bits` trailing zeros (level `tz - split_bits`),
or else — natural boundaries win over max-size cuts — when `max_size > 0`
and the chunk length has reached `max_size` (a forced cut with level 0). -/
def stepMax (c : SpMaxCfg) (d : Digest) (st : SpState) (b : Nat) :
    SpState × Option (List Nat × Nat) :=
  if (st.chunk ++ [b]).length < c.minSize then (⟨st.chunk ++ [b], st.rolled ++ [b]⟩, none)
  else if c.splitBits ≤ tz32 (d (st.rolled ++ [b])) then
    (⟨[], st.rolled ++ [b]⟩, some (st.chunk ++ [b], tz32 (d (st.rolled ++ [b])) - c.splitBits))
  else if 0 < c.maxSize ∧ c.maxSize ≤ (st.chunk ++ [b]).length then
    (⟨[], st.rolled ++ [b]⟩, some (st.chunk ++ [b], 0))
  else (⟨st.chunk ++ [b], st.rolled ++ [b]⟩, none)

/-- Modelled from the spec: the byte loop of the max-size-capable splitter. -/
def runMax (c : SpMaxCfg) (d : Digest) (st : SpState) :
    List Nat → SpState × List (List Nat × Nat)
  | [] => (st, [])
  | b :: bs =>
    match stepMax c d st b with
    | (st1, none) => runMax c d st1 bs
    | (st1, some e) =>
      let r := runMax c d st1 bs
      (r.1, e :: r.2)

/-- Modelled from the spec: end-of-stream handling of the max-size-capable
splitter — a non-empty buffer is emitted regardless of `min_size`, with
level `tz - split_bits` if the boundary condition holds and 0 otherwise. -/
def closeMax (c : SpMaxCfg) (d : Digest) (st : SpState) : List (List Nat × Nat) :=
  if st.chunk = [] then []
  else [(st.chunk,
    if c.splitBits ≤ tz32 (d st.rolled) then tz32 (d st.rolled) - c.splitBits else 0)]

/-- Modelled from the spec: a complete run of the max-size-capable splitter
over a byte sequence, starting from the zero-initialized window. -/
def splitMax (c : SpMaxCfg) (d : Digest) (bytes : List Nat) : List (List Nat × Nat) :=
  (runMax c d initSp bytes).2 ++ closeMax c d (runMax c d initSp bytes).1

/-!
Tree builder with a non-nil transform `TreeBuilder.F`.  The transform's
output is an arbitrary value of the `Node` interface, modelled by `GN`
(offset, size, ordered children; `Child` errors are not modelled — they
are always nil for `TreeBuilderNode`).  Builder-owned nodes are modelled
by `FNode`, whose `id` field is ghost state standing for Go pointer
identity: every node the builder allocates receives a fresh id, and the
run functions record the argument of every `F` invocation, in order.
-/

/-- Model of an arbitrary value of the `Node` interface as observed by
`Root`'s pruning loop: offset, size, and children. -/
inductive GN : Type where
  | mk : Nat → Nat → List GN → GN

/-- Offset of a transformed node. -/
def GN.offset : GN → Nat
  | .mk off _ _ => off

/-- Size of a transformed node. -/
def GN.size : GN → Nat
  | .mk _ sz _ => sz

/-- Children of a transformed node (`NumChildren` / `Child`). -/
def GN.children : GN → List GN
  | .mk _ _ cs => cs

/-- A `*TreeBuilderNode` held in `tb.levels` when `F` is non-nil: its
already-transformed children, its chunks, size, offset, and the ghost
allocation id standing for its pointer identity. -/
structure FNode where
  nodes : List GN
  chunks : List (List Nat)
  size : Nat
  offset : Nat
  id : Nat

/-- State of a `TreeBuilder` with non-nil `F`: the open levels and the
ghost allocator for fresh node identities. -/
structure FSt where
  levels : List FNode
  nextId : Nat

/-- The cascade loop of `Add` with a non-nil transform: each `levels[i]`
is passed to `F` exactly when it is attached as a child of `levels[i+1]`
(a fresh top being allocated first when needed); an `F` error aborts the
loop immediately.  Returns the recorded `F` arguments in call order, and
either the error or the updated levels suffix and allocator. -/
def cascadeF {ε : Type} (F : FNode → Except ε GN) :
    FNode → List FNode → Nat → Nat → List FNode × Except ε (List FNode × Nat)
  | cur, rest, 0, nid => ([], .ok (cur :: rest, nid))
  | cur, [], lv + 1, nid =>
    match F cur with
    | .error e => ([cur], .error e)
    | .ok g =>
      let top : FNode := ⟨[g], [], cur.size, 0, nid⟩
      let fresh : FNode := ⟨[], [], 0, top.offset + top.size, nid + 1⟩
      let r := cascadeF F top [] lv (nid + 2)
      (cur :: r.1, r.2.map (fun p => (fresh :: p.1, p.2)))
  | cur, nx :: rest, lv + 1, nid =>
    match F cur with
    | .error e => ([cur], .error e)
    | .ok g =>
      let nx1 : FNode := ⟨nx.nodes ++ [g], nx.chunks, nx.size, nx.offset, nx.id⟩
      let fresh : FNode := ⟨[], [], 0, nx1.offset + nx1.size, nid⟩
      let r := cascadeF F nx1 rest lv (nid + 1)
      (cur :: r.1, r.2.map (fun p => (fresh :: p.1, p.2)))

/-- Model of `TreeBuilder.Add` with a non-nil transform. -/
def addF {ε : Type} (F : FNode → Except ε GN) (st : FSt) (bytes : List Nat) (lv : Nat) :
    List FNode × Except ε FSt :=
  match (if st.levels.isEmpty
         then ([(⟨[], [], 0, 0, st.nextId⟩ : FNode)], st.nextId + 1)
         else (st.levels, st.nextId)) with
  | ([], _) => ([], .ok st)
  | (l0 :: rest, nid0) =>
    match ((⟨l0.nodes, l0.chunks ++ [bytes], l0.size, l0.offset, l0.id⟩ : FNode) :: rest).map
        (fun n => (⟨n.nodes, n.chunks, n.size + bytes.length, n.offset, n.id⟩ : FNode)) with
    | [] => ([], .ok st)
    | c0 :: r =>
      ((cascadeF F c0 r lv nid0).1,
        (cascadeF F c0 r lv nid0).2.map (fun p => FSt.mk p.1 p.2))

/-- The finalization loop of `Root` with a non-nil transform: `F` is applied
to each of `levels[0] .. levels[len-2]` as it is attached one level up. -/
def attachUpF {ε : Type} (F : FNode → Except ε GN) :
    FNode → List FNode → List FNode × Except ε FNode
  | cur, [] => ([], .ok cur)
  | cur, nx :: rest =>
    match F cur with
    | .error e => ([cur], .error e)
    | .ok g =>
      let r := attachUpF F (⟨nx.nodes ++ [g], nx.chunks, nx.size, nx.offset, nx.id⟩ : FNode) rest
      (cur :: r.1, r.2)

/-- The singleton-pruning loop of `Root` descending through transformed
nodes (`root = root.Child(0)` while `NumChildren() == 1`). -/
def descendG : GN → GN
  | .mk off sz [] => .mk off sz []
  | .mk _ _ [c] => descendG c
  | .mk off sz (c1 :: c2 :: cs) => .mk off sz (c1 :: c2 :: cs)

/-- Last element of the non-empty levels list `x :: l`. -/
def lastF : FNode → List FNode → FNode
  | x, [] => x
  | _, y :: ys => lastF y ys

/-- The tail of `Root` with a non-nil transform, once the top node is in
hand: a top with more than one child is passed to `F` and returned;
otherwise the pruning descent runs (on already-transformed children, so
`F` is not applied again). -/
def finishTop {ε : Type} (F : FNode → Except ε GN) (top : FNode) :
    List FNode × Except ε (Option GN) :=
  if 1 < top.nodes.length then ([top], (F top).map some)
  else
    match top.nodes with
    | [g] => ([], .ok (some (descendG g)))
    | _ => ([], .ok (some (.mk top.offset top.size top.nodes)))

/-- Model of `TreeBuilder.Root` with a non-nil transform. -/
def rootF {ε : Type} (F : FNode → Except ε GN) (st : FSt) :
    List FNode × Except ε (Option GN) :=
  match st.levels with
  | [] => ([], .ok none)
  | [l0] => ([l0], (F l0).map some)
  | l0 :: nx :: rest =>
    if l0.chunks.isEmpty then finishTop F (lastF nx rest)
    else
      match attachUpF F l0 (nx :: rest) with
      | (calls, .error e) => (calls, .error e)
      | (calls, .ok top) => (calls ++ (finishTop F top).1, (finishTop F top).2)

/-- A sequence of `Add` calls with a non-nil transform, recording every `F`
invocation and stopping at the first error. -/
def addAllF {ε : Type} (F : FNode → Except ε GN) :
    FSt → List (List Nat × Nat) → List FNode × Except ε FSt
  | st, [] => ([], .ok st)
  | st, p :: ps =>
    match addF F st p.1 p.2 with
    | (calls, .error e) => (calls, .error e)
    | (calls, .ok st1) => (calls ++ (addAllF F st1 ps).1, (addAllF F st1 ps).2)

/-- A full run with a non-nil transform: a zero-value `TreeBuilder`, the
given `Add` calls, then `Root`; the result pairs every recorded `F`
argument (in invocation order) with the final outcome. -/
def runF {ε : Type} (F : FNode → Except ε GN) (pairs : List (List Nat × Nat)) :
    List FNode × Except ε (Option GN) :=
  match addAllF F ⟨[], 0⟩ pairs with
  | (calls, .error e) => (calls, .error e)
  | (calls, .ok st) => (calls ++ (rootF F st).1, (rootF F st).2)

/-- Case analysis of one `Write` loop iteration: either nothing is emitted
(minimum size not reached, or too few trailing zero bits), or the extended
chunk is emitted with level `tz - SplitBits` where `tz ≥ SplitBits`. -/
theorem writeByte_spec (c : SpCfg) (d : Digest) (st : SpState) (b : Nat) :
    (writeByte c d st b = (⟨st.chunk ++ [b], st.rolled ++ [b]⟩, none) ∧
      ((st.chunk ++ [b]).length < c.effMin ∨
        tz32 (d (st.rolled ++ [b])) < c.effBits)) ∨
    (writeByte c d st b =
        (⟨[], st.rolled ++ [b]⟩,
          some (st.chunk ++ [b], tz32 (d (st.rolled ++ [b])) - c.effBits)) ∧
      c.effBits ≤ tz32 (d (st.rolled ++ [b])) ∧
      c.effMin ≤ (st.chunk ++ [b]).length) := by
  have hcs : checkSplit c d ⟨st.chunk ++ [b], st.rolled ++ [b]⟩ =
      if c.effBits ≤ tz32 (d (st.rolled ++ [b]))
      then (tz32 (d (st.rolled ++ [b])) - c.effBits, true) else (0, false) := rfl
  unfold writeByte
  by_cases hmin : (st.chunk ++ [b]).length < c.effMin
  · rw [if_pos hmin]
    exact Or.inl ⟨rfl, Or.inl hmin⟩
  · rw [if_neg hmin, hcs]
    by_cases hbits : c.effBits ≤ tz32 (d (st.rolled ++ [b]))
    · rw [if_pos hbits]
      exact Or.inr ⟨rfl, hbits, by omega⟩
    · rw [if_neg hbits]
      exact Or.inl ⟨rfl, Or.inr (by omega)⟩

theorem writeRun_join (c : SpCfg) (d : Digest) :
    ∀ (bs : List Nat) (st : SpState),
      (((writeRun c d st bs).2.map Prod.fst).flatten ++ (writeRun c d st bs).1.chunk)
        = st.chunk ++ bs := by
  intro bs
  induction bs with
  | nil => intro st; simp [writeRun]
  | cons b tl ih =>
    intro st
    rcases writeByte_spec c d st b with ⟨hw, _⟩ | ⟨hw, _, _⟩
    · simp only [writeRun, hw]
      rw [ih]
      simp
    · simp only [writeRun, hw]
      simp only [List.map_cons, List.flatten_cons]
      rw [List.append_assoc, ih]
      simp

theorem writeParts_join (c : SpCfg) (d : Digest) :
    ∀ (ps : List (List Nat)) (st : SpState),
      (((writeParts c d st ps).2.map Prod.fst).flatten ++ (writeParts c d st ps).1.chunk)
        = st.chunk ++ ps.flatten := by
  intro ps
  induction ps with
  | nil => intro st; simp [writeParts]
  | cons p tl ih =>
    intro st
    simp only [writeParts, List.map_append, List.flatten_append, List.flatten_cons]
    rw [List.append_assoc, ih (writeRun c d st p).1, ← List.append_assoc,
      writeRun_join c d p st, List.append_assoc]

/-- C1.  Round-trip of the splitter: for every configuration, every digest
function, and every way of partitioning an input `S` into successive `Write`
calls, the concatenation (in invocation order) of the chunks passed to the
callback by the `Write` calls and the final `Close` equals `S` exactly. -/
theorem splitter_round_trip (c : SpCfg) (d : Digest) (parts : List (List Nat)) :
    ((splitterOutput c d parts).map Prod.fst).flatten = parts.flatten := by
  have h := writeParts_join c d parts initSp
  rw [show initSp.chunk = [] from rfl, List.nil_append] at h
  unfold splitterOutput closeSp
  by_cases hc : (writeParts c d initSp parts).1.chunk = []
  · rw [if_pos hc]
    rw [hc] at h
    simpa using h
  · rw [if_neg hc]
    simp only [List.map_append, List.flatten_append]
    simpa using h

/-- C10.  `Splitter.Close` is idempotent: after any `Close` returns, the
buffered chunk is empty, so every further `Close` invokes the callback on no
chunk at all (hence returns nil: the callback is `Close`'s only error
source) and leaves the state unchanged. -/
theorem close_idempotent (c : SpCfg) (d : Digest) (st : SpState) :
    closeSp c d (closeSp c d st).1 = ((closeSp c d st).1, []) := by
  unfold closeSp
  by_cases hc : st.chunk = [] <;> simp [hc]

/-- C2 (code bug).  `TreeBuilder.Root` finalizes the open levels only when
`levels[0].Chunks` is non-empty; when the final chunk added has level 1 and
an earlier chunk had level 2, the open level-1 node holding the final chunk
is never attached, and the pruning descent drops it.  Here the adds
`Add([0], 2); Add([1], 1)` produce a tree whose walk yields `[0]`, not the
full input `[0, 1]`. -/
theorem tree_round_trip_failure :
    (rootOf (addAll [] [([0], 2), ([1], 1)])).map treeBytes = some [0] ∧
      (([([0], 2), ([1], 1)].map Prod.fst).flatten : List Nat) = [0, 1] :=
  ⟨rfl, rfl⟩

/-- C3 (code bug).  Via the same missed finalization: after
`Add([0], 2); Add([1], 2); Add([2], 1)` the returned root is an interior
node of size 3 whose two children have sizes summing to 2; and after
`Add([0], 2); Add([1], 1)` the returned root has size 1 although 2 bytes
were added. -/
theorem tree_invariants_failure :
    ((rootOf (addAll [] [([0], 2), ([1], 2), ([2], 1)])).map
        (fun r => (r.size, (r.nodes.map TBNode.size).sum, r.nodes.length))
      = some (3, 2, 2)) ∧
    ((rootOf (addAll [] [([0], 2), ([1], 1)])).map TBNode.size = some 1 ∧
      totalLen [([0], 2), ([1], 1)] = 2) :=
  ⟨rfl, rfl, rfl⟩

/-- C9 (counterexample).  For the empty input `Root` returns the nil
`Node`, and `Seek` on that sentinel does not return `ErrNotFound`: its very
first step calls a method of the nil interface, a runtime panic. -/
theorem seek_empty_sentinel_panics :
    rootOf (addAll [] []) = none ∧
      seekRoot (rootOf (addAll [] [])) 0 = .error .nilDeref ∧
      (Except.error .nilDeref : Except SeekFailure TBNode) ≠ .error .notFound := by
  refine ⟨rfl, rfl, ?_⟩
  intro h
  simp at h

/-- C9 (amended).  For the empty input: the splitter's callback is never
invoked (a `Write` of an empty slice and `Close` emit no chunks);
`TreeBuilder.Root` with no preceding `Add` returns the nil-`Node` sentinel
with nil error; but `Seek` applied to that sentinel at any position
dereferences the nil interface (a runtime panic), rather than returning the
`ErrNotFound` error. -/
theorem empty_input_behaviour :
    (∀ (c : SpCfg) (d : Digest), splitterOutput c d [[]] = [] ∧ splitterOutput c d [] = []) ∧
      rootOf (addAll [] []) = none ∧
      (∀ pos, seekRoot (rootOf (addAll [] [])) pos = .error .nilDeref) :=
  ⟨fun _ _ => ⟨rfl, rfl⟩, rfl, fun _ => rfl⟩

theorem solidList_iff (ns : List TBNode) :
    solidList ns = true ↔ ∀ c ∈ ns, solidB c = true := by
  induction ns with
  | nil => simp [solidList]
  | cons c cs ih => simp [solidList, ih]

theorem solidB_mk (ns : List TBNode) (ch : List (List Nat)) (sz off : Nat) :
    solidB (.mk ns ch sz off) = ((!ns.isEmpty || !ch.isEmpty) && solidList ns) := by
  simp [solidB]

/-- The pruning descent on a solid node ends at a node that is either a
chunk-bearing leaf or has at least two children. -/
theorem descend_solid (n : TBNode) (hs : solidB n = true) :
    ((descend n).nodes = [] ∧ (descend n).chunks ≠ []) ∨ 2 ≤ (descend n).nodes.length := by
  induction n using descend.induct with
  | case1 ch sz off =>
    left
    rw [solidB_mk] at hs
    simp only [List.isEmpty_nil] at hs
    refine ⟨rfl, ?_⟩
    simp only [descend, TBNode.chunks]
    intro hch
    rw [hch] at hs
    simp at hs
  | case2 c ch sz off ih =>
    rw [solidB_mk] at hs
    simp only [solidList, Bool.and_eq_true] at hs
    simpa [descend] using ih hs.2.1
  | case3 c1 c2 cs ch sz off =>
    right
    simp only [descend, TBNode.nodes, List.length_cons]
    omega

theorem solidB_nodes (n : TBNode) (h : solidB n = true) : solidList n.nodes = true := by
  cases n with
  | mk ns ch sz off =>
    rw [solidB_mk, Bool.and_eq_true] at h
    exact h.2

theorem solidList_append (a b : List TBNode) :
    solidList (a ++ b) = true ↔ (solidList a = true ∧ solidList b = true) := by
  simp only [solidList_iff, List.mem_append]
  constructor
  · intro h
    exact ⟨fun c hc => h c (Or.inl hc), fun c hc => h c (Or.inr hc)⟩
  · rintro ⟨h1, h2⟩ c (hc | hc)
    · exact h1 c hc
    · exact h2 c hc

theorem getLast_cons_ne {α : Type} (x : α) (l : List α) (h : l ≠ []) :
    (x :: l).getLast? = l.getLast? := by
  cases l with
  | nil => exact absurd rfl h
  | cons y ys => rw [List.getLast?_cons_cons]

theorem getLast_single {α : Type} (x : α) : ([x] : List α).getLast? = some x := rfl

theorem getLast_append_ne {α : Type} (l1 l2 : List α) (h : l2 ≠ []) :
    (l1 ++ l2).getLast? = l2.getLast? := by
  induction l1 with
  | nil => rfl
  | cons x xs ih =>
    rw [List.cons_append, getLast_cons_ne]
    · exact ih
    · intro hx
      exact h (List.append_eq_nil.mp hx).2

theorem lastN_getLast (l : List TBNode) : ∀ x, (x :: l).getLast? = some (lastN x l) := by
  induction l with
  | nil => intro x; simp [lastN]
  | cons y ys ih =>
    intro x
    rw [List.getLast?_cons_cons, ih y]
    simp [lastN]

theorem lastN_mem (l : List TBNode) : ∀ x, lastN x l ∈ x :: l := by
  induction l with
  | nil => intro x; simp [lastN]
  | cons y ys ih =>
    intro x
    simp only [lastN]
    exact List.mem_cons_of_mem x (ih y)

theorem cascade_ne_nil (lv : Nat) : ∀ (cur : TBNode) (rest : List TBNode),
    cascade cur rest lv ≠ [] := by
  induction lv with
  | zero => intro cur rest; simp [cascade]
  | succ lv _ =>
    intro cur rest
    cases rest <;> simp [cascade]

theorem cascade_length (lv : Nat) : ∀ (cur : TBNode) (rest : List TBNode),
    (cascade cur rest lv).length = max (rest.length + 1) (lv + 1) := by
  induction lv with
  | zero => intro cur rest; simp [cascade]
  | succ lv ih =>
    intro cur rest
    cases rest with
    | nil =>
      simp only [cascade, List.length_cons, List.length_nil, ih]
      omega
    | cons nx rs =>
      simp only [cascade, List.length_cons, List.length_nil, ih]
      omega

theorem cascade_attached (lv : Nat) : ∀ (cur : TBNode) (rest : List TBNode),
    solidB cur = true →
    (∀ n ∈ rest, solidList n.nodes = true) →
    ∀ n ∈ cascade cur rest lv, solidList n.nodes = true := by
  induction lv with
  | zero =>
    intro cur rest hcur hrest n hn
    simp only [cascade] at hn
    rcases List.mem_cons.mp hn with h | h
    · subst h
      exact solidB_nodes _ hcur
    · exact hrest n h
  | succ lv ih =>
    intro cur rest hcur hrest n hn
    cases rest with
    | nil =>
      simp only [cascade] at hn
      rcases List.mem_cons.mp hn with h | h
      · subst h; simp [TBNode.nodes, solidList]
      · refine ih _ [] ?_ (by simp) n h
        rw [solidB_mk, Bool.and_eq_true]
        refine ⟨by simp, ?_⟩
        simp [solidList, hcur]
    | cons nx rs =>
      simp only [cascade] at hn
      rcases List.mem_cons.mp hn with h | h
      · subst h; simp [TBNode.nodes, solidList]
      · refine ih _ rs ?_ (fun m hm => hrest m (List.mem_cons_of_mem nx hm)) n h
        rw [solidB_mk, Bool.and_eq_true]
        have hnx := hrest nx (List.mem_cons_self nx rs)
        refine ⟨by simp, ?_⟩
        rw [solidList_append]
        exact ⟨hnx, by simp [solidList, hcur]⟩

theorem cascade_head_pos (lv : Nat) (hlv : 0 < lv) (cur : TBNode) (rest : List TBNode) :
    ∃ off tl, cascade cur rest lv = TBNode.mk [] [] 0 off :: tl := by
  cases lv with
  | zero => omega
  | succ lv => cases rest <;> exact ⟨_, _, rfl⟩

theorem cascade_last (lv : Nat) : ∀ (cur : TBNode) (rest : List TBNode),
    (∀ m, rest.getLast? = some m → m.nodes ≠ []) →
    2 ≤ (cascade cur rest lv).length →
    ∀ m, (cascade cur rest lv).getLast? = some m → m.nodes ≠ [] := by
  induction lv with
  | zero =>
    intro cur rest hrest hlen m hm
    simp only [cascade] at hlen hm
    cases rest with
    | nil => simp at hlen
    | cons y ys =>
      rw [List.getLast?_cons_cons] at hm
      exact hrest m hm
  | succ lv ih =>
    intro cur rest hrest hlen m hm
    cases rest with
    | nil =>
      simp only [cascade] at hm
      rw [getLast_cons_ne _ _ (cascade_ne_nil lv _ [])] at hm
      cases lv with
      | zero =>
        simp only [cascade] at hm
        rw [getLast_single, Option.some.injEq] at hm
        subst hm
        simp [TBNode.nodes]
      | succ lv2 =>
        refine ih _ [] (by simp) ?_ m hm
        rw [cascade_length]
        omega
    | cons nx rs =>
      simp only [cascade] at hm
      rw [getLast_cons_ne _ _ (cascade_ne_nil lv _ rs)] at hm
      rcases Nat.eq_zero_or_pos lv with hlv | hlv
      · subst hlv
        cases rs with
        | nil =>
          simp only [cascade] at hm
          rw [getLast_single, Option.some.injEq] at hm
          subst hm
          simp [TBNode.nodes]
        | cons y ys =>
          simp only [cascade, List.getLast?_cons_cons] at hm
          refine hrest m ?_
          rw [List.getLast?_cons_cons]
          exact hm
      · cases rs with
        | nil =>
          refine ih _ [] (by simp) ?_ m hm
          rw [cascade_length]
          omega
        | cons y ys =>
          refine ih _ (y :: ys) ?_ ?_ m hm
          · intro m2 hm2
            refine hrest m2 ?_
            rw [List.getLast?_cons_cons]
            exact hm2
          · rw [cascade_length]
            simp only [List.length_cons]
            omega

theorem getLast_map (f : TBNode → TBNode) :
    ∀ l : List TBNode, (l.map f).getLast? = l.getLast?.map f := by
  intro l
  induction l with
  | nil => rfl
  | cons x xs ih =>
    cases xs with
    | nil => rfl
    | cons y ys =>
      simp only [List.map_cons, List.getLast?_cons_cons] at *
      exact ih

theorem addChunk_cons (l0 : TBNode) (rest : List TBNode) (b : List Nat) (lv : Nat) :
    addChunk (l0 :: rest) b lv =
      cascade (TBNode.mk l0.nodes (l0.chunks ++ [b]) (l0.size + b.length) l0.offset)
        (rest.map (fun n => TBNode.mk n.nodes n.chunks (n.size + b.length) n.offset)) lv := by
  cases l0 with
  | mk ns ch sz off => rfl

theorem addChunk_nil (b : List Nat) (lv : Nat) :
    addChunk [] b lv = cascade (TBNode.mk [] [b] (0 + b.length) 0) [] lv := rfl

theorem cascade_invP (lv : Nat) (c0 : TBNode) (r : List TBNode)
    (hsolid : solidB c0 = true)
    (hc0nodes : c0.nodes = [])
    (hc0chunks : c0.chunks ≠ [])
    (hr : ∀ n ∈ r, solidList n.nodes = true)
    (hrlast : ∀ m, r.getLast? = some m → m.nodes ≠ []) :
    InvP (cascade c0 r lv) := by
  cases lv with
  | zero =>
    have hz : cascade c0 r 0 = c0 :: r := by simp [cascade]
    rw [hz]
    refine ⟨?_, fun _ => hc0chunks, ?_, hc0nodes⟩
    · intro n hn
      rcases List.mem_cons.mp hn with h | h
      · subst h; exact solidB_nodes _ hsolid
      · exact hr n h
    · intro m hm hne
      rw [getLast_cons_ne _ _ hne] at hm
      exact hrlast m hm
  | succ lv0 =>
    obtain ⟨off, tl, hres⟩ := cascade_head_pos (lv0 + 1) (Nat.succ_pos lv0) c0 r
    have hlen : 2 ≤ (cascade c0 r (lv0 + 1)).length := by
      rw [cascade_length]
      omega
    have htl : tl ≠ [] := by
      intro h
      rw [hres, h] at hlen
      simp at hlen
    have hatt := cascade_attached (lv0 + 1) c0 r hsolid hr
    have hlast := cascade_last (lv0 + 1) c0 r hrlast hlen
    rw [hres] at hatt hlast ⊢
    exact ⟨hatt, fun h => absurd h htl, fun m hm _ => hlast m hm, rfl⟩

theorem addChunk_inv (ls : List TBNode) (h : InvP ls) (b : List Nat) (lv : Nat) :
    InvP (addChunk ls b lv) := by
  cases ls with
  | nil => exact absurd h (by simp [InvP])
  | cons l0 rest =>
    obtain ⟨hatt, _, hlast, hnodes⟩ := h
    rw [addChunk_cons]
    refine cascade_invP lv _ _ ?_ ?_ ?_ ?_ ?_
    · rw [solidB_mk, Bool.and_eq_true]
      refine ⟨by simp, ?_⟩
      exact hatt l0 (List.mem_cons_self l0 rest)
    · exact hnodes
    · simp [TBNode.chunks]
    · intro n hn
      rcases List.mem_map.mp hn with ⟨m, hm, hfm⟩
      rw [← hfm]
      exact hatt m (List.mem_cons_of_mem l0 hm)
    · intro m hm
      rw [getLast_map] at hm
      rcases Option.map_eq_some.mp hm with ⟨m0, hm0, hfm⟩
      have hne : rest ≠ [] := by
        intro h
        rw [h] at hm0
        exact Option.noConfusion hm0
      have := hlast m0 (by rw [getLast_cons_ne _ _ hne]; exact hm0) hne
      rw [← hfm]
      exact this

theorem addAll_inv : ∀ (ps : List (List Nat × Nat)) (ls : List TBNode),
    InvP ls → InvP (addAll ls ps) := by
  intro ps
  induction ps with
  | nil => intro ls h; exact h
  | cons p tl ih => intro ls h; exact ih _ (addChunk_inv ls h p.1 p.2)

theorem addAll_nil_inv (pairs : List (List Nat × Nat)) (hne : pairs ≠ []) :
    InvP (addAll [] pairs) := by
  cases pairs with
  | nil => exact absurd rfl hne
  | cons p ps =>
    show InvP (addAll (addChunk [] p.1 p.2) ps)
    refine addAll_inv ps _ ?_
    rw [addChunk_nil]
    refine cascade_invP _ _ _ ?_ rfl (by simp [TBNode.chunks]) (by simp) (by simp)
    rw [solidB_mk]
    simp [solidList]

theorem finalAttach_solid : ∀ (rest : List TBNode) (cur : TBNode),
    solidB cur = true →
    (∀ n ∈ rest, solidList n.nodes = true) →
    solidB (finalAttach cur rest) = true ∧
      (rest ≠ [] → (finalAttach cur rest).nodes ≠ []) := by
  intro rest
  induction rest with
  | nil => intro cur hcur _; exact ⟨hcur, fun h => absurd rfl h⟩
  | cons nx rs ih =>
    intro cur hcur hatt
    have hnx := hatt nx (List.mem_cons_self nx rs)
    have hcur1 : solidB (TBNode.mk (nx.nodes ++ [cur]) nx.chunks nx.size nx.offset) = true := by
      rw [solidB_mk, Bool.and_eq_true]
      refine ⟨by simp, ?_⟩
      rw [solidList_append]
      exact ⟨hnx, by simp [solidList, hcur]⟩
    have h2 := ih _ hcur1 (fun n hn => hatt n (List.mem_cons_of_mem nx hn))
    refine ⟨h2.1, fun _ => ?_⟩
    show (finalAttach (TBNode.mk (nx.nodes ++ [cur]) nx.chunks nx.size nx.offset) rs).nodes ≠ []
    cases rs with
    | nil => simp [finalAttach, TBNode.nodes]
    | cons y ys => exact h2.2 (by simp)

/-- C5.  After any non-empty sequence of `Add` calls (with `F` nil), the
node returned by `Root` is either a level-0 node (no children, at least one
chunk) or a node with at least two children; never a node with exactly one
child. -/
theorem root_pruned (pairs : List (List Nat × Nat)) (hne : pairs ≠ []) :
    ∃ root, rootOf (addAll [] pairs) = some root ∧
      ((root.nodes = [] ∧ root.chunks ≠ []) ∨ 2 ≤ root.nodes.length) := by
  have hinv := addAll_nil_inv pairs hne
  rcases hlv : addAll [] pairs with _ | ⟨l0, rest⟩
  · rw [hlv] at hinv
    exact absurd hinv (by simp [InvP])
  · rw [hlv] at hinv
    obtain ⟨hatt, hchunks, hlast, hnodes⟩ := hinv
    cases rest with
    | nil =>
      refine ⟨l0, rfl, Or.inl ⟨hnodes, hchunks rfl⟩⟩
    | cons nx rs =>
      simp only [rootOf]
      have htopsolid : solidB (if l0.chunks.isEmpty then lastN nx rs
          else finalAttach l0 (nx :: rs)) = true := by
        by_cases hce : l0.chunks.isEmpty
        · rw [if_pos hce]
          have hmem : lastN nx rs ∈ nx :: rs := lastN_mem rs nx
          have hsl : solidList (lastN nx rs).nodes = true :=
            hatt _ (List.mem_cons_of_mem l0 hmem)
          have hln : (lastN nx rs).nodes ≠ [] := by
            refine hlast (lastN nx rs) ?_ (by simp)
            rw [getLast_cons_ne _ _ (by simp), lastN_getLast]
          cases hl : lastN nx rs with
          | mk ns ch sz off =>
            rw [solidB_mk, Bool.and_eq_true]
            rw [hl] at hsl hln
            refine ⟨?_, hsl⟩
            simp only [TBNode.nodes] at hln
            cases ns with
            | nil => exact absurd rfl hln
            | cons a as => simp
        · rw [if_neg hce]
          have hl0solid : solidB l0 = true := by
            cases hl : l0 with
            | mk ns ch sz off =>
              rw [solidB_mk, Bool.and_eq_true]
              rw [hl] at hnodes
              simp only [TBNode.nodes] at hnodes
              subst hnodes
              refine ⟨?_, by simp [solidList]⟩
              rw [hl] at hce
              simp only [TBNode.chunks] at hce
              simp [hce]
          exact (finalAttach_solid (nx :: rs) l0 hl0solid
            (fun n hn => hatt n (List.mem_cons_of_mem l0 hn))).1
      by_cases htop : 1 < (if l0.chunks.isEmpty then lastN nx rs
          else finalAttach l0 (nx :: rs)).nodes.length
      · rw [if_pos htop]
        exact ⟨_, rfl, Or.inr htop⟩
      · rw [if_neg htop]
        exact ⟨_, rfl, descend_solid _ htopsolid⟩

/-- Witness for the pruning theorem at a concrete two-chunk build. -/
theorem root_pruned_w :
    ([([10], 1), ([20], 0)] : List (List Nat × Nat)) ≠ [] ∧
      ∃ root, rootOf (addAll [] [([10], 1), ([20], 0)]) = some root ∧
        ((root.nodes = [] ∧ root.chunks ≠ []) ∨ 2 ≤ root.nodes.length) :=
  ⟨by simp, root_pruned [([10], 1), ([20], 0)] (by simp)⟩

theorem sizeOf_mem_nodes {c : TBNode} {ns : List TBNode} (h : c ∈ ns)
    (ch : List (List Nat)) (sz off : Nat) :
    sizeOf c < sizeOf (TBNode.mk ns ch sz off) := by
  have := List.sizeOf_lt_of_mem h
  simp only [TBNode.mk.sizeOf_spec]
  omega

theorem wfb_leaf (ch : List (List Nat)) (sz off : Nat) :
    wfb (.mk [] ch sz off) = !ch.isEmpty := by
  simp [wfb]

theorem wfb_interior (c : TBNode) (cs : List TBNode) (ch : List (List Nat)) (sz off : Nat) :
    wfb (.mk (c :: cs) ch sz off) =
      ((tileChk off (c :: cs) == some (off + sz)) && wfbList (c :: cs)) := by
  simp [wfb]

theorem wfbList_iff (ns : List TBNode) :
    wfbList ns = true ↔ ∀ c ∈ ns, wfb c = true := by
  induction ns with
  | nil => simp [wfbList]
  | cons c cs ih => simp [wfbList, ih]

theorem tileChk_bounds : ∀ (l : List TBNode) (cur e : Nat), tileChk cur l = some e →
    cur ≤ e ∧ ∀ c ∈ l, cur ≤ c.offset ∧ c.offset + c.size ≤ e := by
  intro l
  induction l with
  | nil =>
    intro cur e h
    simp only [tileChk, Option.some.injEq] at h
    subst h
    exact ⟨Nat.le_refl _, by simp⟩
  | cons c cs ih =>
    intro cur e h
    simp only [tileChk] at h
    by_cases hoff : c.offset = cur
    · rw [if_pos hoff] at h
      obtain ⟨h1, h2⟩ := ih (cur + c.size) e h
      refine ⟨by omega, ?_⟩
      intro x hx
      rcases List.mem_cons.mp hx with hx | hx
      · subst hx
        omega
      · have := h2 x hx
        omega
    · rw [if_neg hoff] at h
      exact Option.noConfusion h

theorem seekNode_out (n : TBNode) (pos : Nat)
    (h : pos < n.offset ∨ n.offset + n.size ≤ pos) : seekNode n pos = none := by
  cases n with
  | mk ns ch sz off =>
    simp only [TBNode.offset, TBNode.size] at h
    unfold seekNode
    rw [if_pos h]

/-- Main `Seek` lemma: within a well-formed node's range, `seekNode` finds a
chunk-bearing-or-empty leaf whose range contains the position. -/
theorem seek_ok_aux : ∀ (k : Nat) (n : TBNode), sizeOf n ≤ k → wfb n = true →
    ∀ pos, n.offset ≤ pos → pos < n.offset + n.size →
      ∃ m, seekNode n pos = some m ∧ m ∈ leavesOf n ∧ m.nodes = [] ∧
        m.offset ≤ pos ∧ pos < m.offset + m.size := by
  intro k
  induction k with
  | zero =>
    intro n hk
    cases n with
    | mk ns ch sz off =>
      simp [TBNode.mk.sizeOf_spec] at hk
  | succ k ih =>
    intro n hk hwf pos hlo hhi
    cases n with
    | mk ns ch sz off =>
      simp only [TBNode.offset, TBNode.size] at hlo hhi
      have hnotout : ¬(pos < off ∨ off + sz ≤ pos) := by omega
      cases ns with
      | nil =>
        refine ⟨.mk [] ch sz off, ?_, ?_, rfl, hlo, hhi⟩
        · simp [seekNode, hnotout]
        · simp [leavesOf]
      | cons c cs =>
        rw [wfb_interior, Bool.and_eq_true, beq_iff_eq] at hwf
        obtain ⟨htile, hwl⟩ := hwf
        have hkids : ∀ (l : List TBNode) (cur : Nat),
            (∀ x ∈ l, sizeOf x ≤ k) → (∀ x ∈ l, wfb x = true) →
            tileChk cur l = some (off + sz) → cur ≤ pos →
            ∃ m, seekKids l pos = some m ∧ m ∈ leavesList l ∧ m.nodes = [] ∧
              m.offset ≤ pos ∧ pos < m.offset + m.size := by
          intro l
          induction l with
          | nil =>
            intro cur _ _ ht hcur
            simp only [tileChk, Option.some.injEq] at ht
            omega
          | cons x xs ihl =>
            intro cur hsz hwfl ht hcur
            simp only [tileChk] at ht
            by_cases hoff : x.offset = cur
            · rw [if_pos hoff] at ht
              by_cases hskip : x.offset + x.size ≤ pos
              · obtain ⟨m, hm1, hm2, hm3, hm4, hm5⟩ :=
                  ihl (cur + x.size) (fun y hy => hsz y (List.mem_cons_of_mem x hy))
                    (fun y hy => hwfl y (List.mem_cons_of_mem x hy)) ht (by omega)
                refine ⟨m, ?_, ?_, hm3, hm4, hm5⟩
                · simp [seekKids, hskip, hm1]
                · simp only [leavesList, List.mem_append]
                  exact Or.inr hm2
              · obtain ⟨m, hm1, hm2, hm3, hm4, hm5⟩ :=
                  ih x (hsz x (List.mem_cons_self x xs)) (hwfl x (List.mem_cons_self x xs))
                    pos (by omega) (by omega)
                refine ⟨m, ?_, ?_, hm3, hm4, hm5⟩
                · simp [seekKids, hskip, hm1]
                · simp only [leavesList, List.mem_append]
                  exact Or.inl hm2
            · rw [if_neg hoff] at ht
              exact Option.noConfusion ht
        obtain ⟨m, hm1, hm2, hm3, hm4, hm5⟩ :=
          hkids (c :: cs) off
            (fun x hx => by
              have := sizeOf_mem_nodes hx ch sz off
              omega)
            (fun x hx => (wfbList_iff (c :: cs)).mp hwl x hx)
            htile hlo
        refine ⟨m, ?_, ?_, hm3, hm4, hm5⟩
        · simp only [seekNode, hnotout, if_false]
          exact hm1
        · simp only [leavesOf]
          exact hm2

theorem leaves_range_aux : ∀ (k : Nat) (n : TBNode), sizeOf n ≤ k → wfb n = true →
    ∀ m ∈ leavesOf n, n.offset ≤ m.offset ∧ m.offset + m.size ≤ n.offset + n.size := by
  intro k
  induction k with
  | zero =>
    intro n hk
    cases n with
    | mk ns ch sz off => simp [TBNode.mk.sizeOf_spec] at hk
  | succ k ih =>
    intro n hk hwf m hm
    cases n with
    | mk ns ch sz off =>
      cases ns with
      | nil =>
        simp only [leavesOf, List.mem_singleton] at hm
        subst hm
        simp only [TBNode.offset, TBNode.size]
        omega
      | cons c cs =>
        rw [wfb_interior, Bool.and_eq_true, beq_iff_eq] at hwf
        obtain ⟨htile, hwl⟩ := hwf
        simp only [leavesOf] at hm
        simp only [TBNode.offset, TBNode.size]
        have hin : ∀ (l : List TBNode) (cur e : Nat),
            (∀ x ∈ l, sizeOf x ≤ k) → (∀ x ∈ l, wfb x = true) →
            tileChk cur l = some e →
            ∀ m2 ∈ leavesList l, cur ≤ m2.offset ∧ m2.offset + m2.size ≤ e := by
          intro l
          induction l with
          | nil =>
            intro cur e _ _ _ m2 hm2
            simp [leavesList] at hm2
          | cons x xs ihl =>
            intro cur e hsz hwfl ht m2 hm2
            simp only [tileChk] at ht
            by_cases hoff : x.offset = cur
            · rw [if_pos hoff] at ht
              simp only [leavesList, List.mem_append] at hm2
              have hxse := (tileChk_bounds xs (cur + x.size) e ht).1
              rcases hm2 with hm2 | hm2
              · have := ih x (hsz x (List.mem_cons_self x xs))
                  (hwfl x (List.mem_cons_self x xs)) m2 hm2
                omega
              · have := ihl (cur + x.size) e
                  (fun y hy => hsz y (List.mem_cons_of_mem x hy))
                  (fun y hy => hwfl y (List.mem_cons_of_mem x hy)) ht m2 hm2
                omega
            · rw [if_neg hoff] at ht
              exact Option.noConfusion ht
        exact hin (c :: cs) off (off + sz)
          (fun x hx => by have := sizeOf_mem_nodes hx ch sz off; omega)
          ((wfbList_iff (c :: cs)).mp hwl) htile m hm

theorem leaves_range (n : TBNode) (hwf : wfb n = true) :
    ∀ m ∈ leavesOf n, n.offset ≤ m.offset ∧ m.offset + m.size ≤ n.offset + n.size :=
  leaves_range_aux (sizeOf n) n (Nat.le_refl _) hwf

theorem leavesList_range : ∀ (l : List TBNode) (cur e : Nat),
    (∀ x ∈ l, wfb x = true) → tileChk cur l = some e →
    ∀ m ∈ leavesList l, cur ≤ m.offset ∧ m.offset + m.size ≤ e := by
  intro l
  induction l with
  | nil =>
    intro cur e _ _ m hm
    simp [leavesList] at hm
  | cons x xs ihl =>
    intro cur e hwfl ht m hm
    simp only [tileChk] at ht
    by_cases hoff : x.offset = cur
    · rw [if_pos hoff] at ht
      simp only [leavesList, List.mem_append] at hm
      have hxse := (tileChk_bounds xs (cur + x.size) e ht).1
      rcases hm with hm | hm
      · have := leaves_range x (hwfl x (List.mem_cons_self x xs)) m hm
        omega
      · have := ihl (cur + x.size) e
          (fun y hy => hwfl y (List.mem_cons_of_mem x hy)) ht m hm
        omega
    · rw [if_neg hoff] at ht
      exact Option.noConfusion ht

theorem leaves_unique_aux : ∀ (k : Nat) (n : TBNode), sizeOf n ≤ k → wfb n = true →
    ∀ (pos : Nat) (m1 m2 : TBNode), m1 ∈ leavesOf n → m2 ∈ leavesOf n →
      m1.offset ≤ pos → pos < m1.offset + m1.size →
      m2.offset ≤ pos → pos < m2.offset + m2.size → m1 = m2 := by
  intro k
  induction k with
  | zero =>
    intro n hk
    cases n with
    | mk ns ch sz off => simp [TBNode.mk.sizeOf_spec] at hk
  | succ k ih =>
    intro n hk hwf pos m1 m2 h1 h2 hl1 hh1 hl2 hh2
    cases n with
    | mk ns ch sz off =>
      cases ns with
      | nil =>
        simp only [leavesOf, List.mem_singleton] at h1 h2
        exact h1.trans h2.symm
      | cons c cs =>
        rw [wfb_interior, Bool.and_eq_true, beq_iff_eq] at hwf
        obtain ⟨htile, hwl⟩ := hwf
        simp only [leavesOf] at h1 h2
        have hin : ∀ (l : List TBNode) (cur e : Nat),
            (∀ x ∈ l, sizeOf x ≤ k) → (∀ x ∈ l, wfb x = true) →
            tileChk cur l = some e →
            m1 ∈ leavesList l → m2 ∈ leavesList l → m1 = m2 := by
          intro l
          induction l with
          | nil =>
            intro cur e _ _ _ hm1
            simp [leavesList] at hm1
          | cons x xs ihl =>
            intro cur e hsz hwfl ht hm1 hm2
            simp only [tileChk] at ht
            by_cases hoff : x.offset = cur
            · rw [if_pos hoff] at ht
              simp only [leavesList, List.mem_append] at hm1 hm2
              have hwx := hwfl x (List.mem_cons_self x xs)
              have hwxs : ∀ y ∈ xs, wfb y = true :=
                fun y hy => hwfl y (List.mem_cons_of_mem x hy)
              rcases hm1 with hm1 | hm1 <;> rcases hm2 with hm2 | hm2
              · exact ih x (hsz x (List.mem_cons_self x xs)) hwx pos m1 m2 hm1 hm2
                  hl1 hh1 hl2 hh2
              · have hr1 := leaves_range x hwx m1 hm1
                have hr2 := leavesList_range xs (cur + x.size) e hwxs ht m2 hm2
                omega
              · have hr1 := leavesList_range xs (cur + x.size) e hwxs ht m1 hm1
                have hr2 := leaves_range x hwx m2 hm2
                omega
              · exact ihl (cur + x.size) e
                  (fun y hy => hsz y (List.mem_cons_of_mem x hy)) hwxs ht hm1 hm2
            · rw [if_neg hoff] at ht
              exact Option.noConfusion ht
        exact hin (c :: cs) off (off + sz)
          (fun x hx => by have := sizeOf_mem_nodes hx ch sz off; omega)
          ((wfbList_iff (c :: cs)).mp hwl) htile h1 h2

/-- C4.  For a well-formed tree root built by the `TreeBuilder` from input
of length `totalLen pairs` (well-formed meaning the `wfb` shape invariants
together with root coverage `offset = 0`, `size = totalLen`): `Seek`
returns, with nil error, the unique level-0 node whose range contains `pos`
for every `pos` in range, and returns `ErrNotFound` for every
`pos ≥ totalLen` (and for every `pos < root.Offset()`). -/
theorem seek_correct (pairs : List (List Nat × Nat)) (root : TBNode)
    (_hne : pairs ≠ []) (_hroot : rootOf (addAll [] pairs) = some root)
    (hwf : wfb root = true) (hoff : root.offset = 0) (hsz : root.size = totalLen pairs) :
    (∀ pos, pos < totalLen pairs →
      ∃ m, seekRoot (some root) pos = .ok m ∧ m ∈ leavesOf root ∧ m.nodes = [] ∧
        m.offset ≤ pos ∧ pos < m.offset + m.size ∧
        ∀ m2 ∈ leavesOf root, m2.offset ≤ pos → pos < m2.offset + m2.size → m2 = m) ∧
    (∀ pos, totalLen pairs ≤ pos → seekRoot (some root) pos = .error .notFound) ∧
    (∀ pos, pos < root.offset → seekRoot (some root) pos = .error .notFound) := by
  refine ⟨?_, ?_, ?_⟩
  · intro pos hpos
    obtain ⟨m, hm1, hm2, hm3, hm4, hm5⟩ :=
      seek_ok_aux (sizeOf root) root (Nat.le_refl _) hwf pos (by omega) (by omega)
    refine ⟨m, ?_, hm2, hm3, hm4, hm5, ?_⟩
    · simp [seekRoot, hm1]
    · intro m2 hm2x hlo hhi
      exact leaves_unique_aux (sizeOf root) root (Nat.le_refl _) hwf pos m2 m
        hm2x hm2 hlo hhi hm4 hm5
  · intro pos hpos
    have hout : seekNode root pos = none := seekNode_out root pos (by omega)
    simp [seekRoot, hout]
  · intro pos hpos
    have hout : seekNode root pos = none := seekNode_out root pos (Or.inl hpos)
    simp [seekRoot, hout]

/-- Witness for `seek_correct` on a concrete two-leaf tree: `Seek` at
position 0 finds the unique containing leaf, and at position 5 (past the
end) reports not-found. -/
theorem seek_correct_w :
    (([([10], 1), ([20], 0)] : List (List Nat × Nat)) ≠ []) ∧
    (∃ m, seekRoot (some (TBNode.mk [TBNode.mk [] [[10]] 1 0, TBNode.mk [] [[20]] 1 1] [] 2 0))
        0 = .ok m ∧
      m ∈ leavesOf (TBNode.mk [TBNode.mk [] [[10]] 1 0, TBNode.mk [] [[20]] 1 1] [] 2 0) ∧
      m.nodes = [] ∧ m.offset ≤ 0 ∧ 0 < m.offset + m.size ∧
      ∀ m2 ∈ leavesOf (TBNode.mk [TBNode.mk [] [[10]] 1 0, TBNode.mk [] [[20]] 1 1] [] 2 0),
        m2.offset ≤ 0 → 0 < m2.offset + m2.size → m2 = m) ∧
    seekRoot (some (TBNode.mk [TBNode.mk [] [[10]] 1 0, TBNode.mk [] [[20]] 1 1] [] 2 0))
        5 = .error .notFound :=
  ⟨by simp,
    (seek_correct [([10], 1), ([20], 0)] _ (by simp) rfl rfl rfl rfl).1 0 (by simp [totalLen]),
    (seek_correct [([10], 1), ([20], 0)] _ (by simp) rfl rfl rfl rfl).2.1 5 (by simp [totalLen])⟩

theorem writeRun_append (c : SpCfg) (d : Digest) :
    ∀ (xs ys : List Nat) (st : SpState),
      writeRun c d st (xs ++ ys) =
        ((writeRun c d (writeRun c d st xs).1 ys).1,
          (writeRun c d st xs).2 ++ (writeRun c d (writeRun c d st xs).1 ys).2) := by
  intro xs
  induction xs with
  | nil => intro ys st; simp [writeRun]
  | cons b tl ih =>
    intro ys st
    rcases hw : writeByte c d st b with ⟨st1, e⟩
    cases e with
    | none =>
      simp only [List.cons_append, writeRun, hw]
      exact ih ys st1
    | some ev =>
      simp only [List.cons_append, writeRun, hw, List.append_eq]
      rw [ih ys st1]

theorem writeParts_eq_run (c : SpCfg) (d : Digest) :
    ∀ (ps : List (List Nat)) (st : SpState),
      writeParts c d st ps = writeRun c d st ps.flatten := by
  intro ps
  induction ps with
  | nil => intro st; simp [writeParts, writeRun]
  | cons p tl ih =>
    intro st
    simp only [writeParts, List.flatten_cons, writeRun_append, ih]

theorem writeRun_rolled (c : SpCfg) (d : Digest) :
    ∀ (bs : List Nat) (st : SpState),
      (writeRun c d st bs).1.rolled = st.rolled ++ bs := by
  intro bs
  induction bs with
  | nil => intro st; simp [writeRun]
  | cons b tl ih =>
    intro st
    rcases writeByte_spec c d st b with ⟨hw, _⟩ | ⟨hw, _, _⟩ <;>
      · simp only [writeRun, hw, ih]
        simp

/-- Every chunk emitted by the `Write` loop carries the level
`tz - SplitBits`, where `tz` is the number of trailing zero bits of the
digest over everything rolled so far (the window prefix `pre` followed by
the input consumed up to and including this chunk), and `tz >= SplitBits`
at each emission. -/
theorem writeRun_levels (c : SpCfg) (d : Digest) :
    ∀ (bs : List Nat) (st : SpState) (pre : List Nat),
      st.rolled = pre ++ st.chunk →
      ∀ (k : Nat) (ch : List Nat) (lv : Nat),
        (writeRun c d st bs).2[k]? = some (ch, lv) →
        c.effBits ≤ tz32 (d (pre ++
            ((((writeRun c d st bs).2.take (k+1)).map Prod.fst).flatten))) ∧
        lv = tz32 (d (pre ++
            (((writeRun c d st bs).2.take (k+1)).map Prod.fst).flatten)) - c.effBits := by
  intro bs
  induction bs with
  | nil =>
    intro st pre hpre k ch lv hk
    simp [writeRun] at hk
  | cons b tl ih =>
    intro st pre hpre k ch lv hk
    rcases writeByte_spec c d st b with ⟨hw, _⟩ | ⟨hw, hbits, _⟩
    · have hpre1 : (⟨st.chunk ++ [b], st.rolled ++ [b]⟩ : SpState).rolled =
          pre ++ (⟨st.chunk ++ [b], st.rolled ++ [b]⟩ : SpState).chunk := by
        simp only [hpre]
        simp
      simp only [writeRun, hw] at hk ⊢
      exact ih _ pre hpre1 k ch lv hk
    · have hpre1 : (⟨[], st.rolled ++ [b]⟩ : SpState).rolled =
          (pre ++ (st.chunk ++ [b])) ++ (⟨[], st.rolled ++ [b]⟩ : SpState).chunk := by
        simp only [hpre]
        simp
      simp only [writeRun, hw] at hk ⊢
      cases k with
      | zero =>
        simp only [List.getElem?_cons_zero, Option.some.injEq, Prod.mk.injEq] at hk
        obtain ⟨hch, hlv⟩ := hk
        simp only [List.take_succ_cons, List.take_zero, List.map_cons, List.map_nil,
          List.flatten_cons, List.flatten_nil, List.append_nil]
        rw [hpre] at hbits
        subst hch
        subst hlv
        constructor
        · simpa [List.append_assoc] using hbits
        · rw [hpre, List.append_assoc]
      | succ k =>
        simp only [List.getElem?_cons_succ] at hk
        have := ih _ _ hpre1 k ch lv hk
        simp only [List.take_succ_cons, List.map_cons, List.flatten_cons]
        rw [← List.append_assoc]
        exact this

/-- C6.  Every chunk emitted during `Write` has level
`tz32(digest) - SplitBits` computed at its final byte, with
`tz32(digest) >= SplitBits`; and `Close`, whenever the internal buffer is
non-empty, emits it as one final chunk regardless of `MinSize`, with level
`tz - SplitBits` if the digest then has at least `SplitBits` trailing zero
bits and level 0 otherwise. -/
theorem chunk_levels (c : SpCfg) (d : Digest) (parts : List (List Nat)) :
    (∀ (k : Nat) (ch : List Nat) (lv : Nat),
      (writeParts c d initSp parts).2[k]? = some (ch, lv) →
      c.effBits ≤ tz32 (d (List.replicate 64 0 ++
        ((((writeParts c d initSp parts).2.take (k+1)).map Prod.fst).flatten))) ∧
      lv = tz32 (d (List.replicate 64 0 ++
        (((writeParts c d initSp parts).2.take (k+1)).map Prod.fst).flatten)) - c.effBits) ∧
    ((writeParts c d initSp parts).1.chunk ≠ [] →
      (closeSp c d (writeParts c d initSp parts).1).2 =
        [((writeParts c d initSp parts).1.chunk,
          if c.effBits ≤ tz32 (d (List.replicate 64 0 ++ parts.flatten))
          then tz32 (d (List.replicate 64 0 ++ parts.flatten)) - c.effBits
          else 0)]) := by
  constructor
  · intro k ch lv hk
    rw [writeParts_eq_run] at hk ⊢
    exact writeRun_levels c d parts.flatten initSp (List.replicate 64 0)
      (by simp [initSp]) k ch lv hk
  · intro hne
    have hrolled : (writeParts c d initSp parts).1.rolled =
        List.replicate 64 0 ++ parts.flatten := by
      rw [writeParts_eq_run, writeRun_rolled]
      simp [initSp]
    unfold closeSp
    rw [if_neg hne]
    unfold checkSplit
    rw [hrolled]
    by_cases hb : c.effBits ≤ tz32 (d (List.replicate 64 0 ++ parts.flatten))
    · rw [if_pos hb, if_pos hb]
    · rw [if_neg hb, if_neg hb]

/-- Witness for `chunk_levels` at a concrete digest function that fires
exactly once: the first emitted chunk has level `tz - SplitBits` and the
final buffered byte is flushed by `Close` with level 0. -/
theorem chunk_levels_w :
    ((writeParts ⟨1, 1⟩ (fun l => if l.length = 65 then 2 else 1) initSp [[5, 6]]).2[0]? =
        some ([5], 0) ∧
      (SpCfg.mk 1 1).effBits ≤ tz32 ((fun l : List Nat => if l.length = 65 then 2 else 1)
        (List.replicate 64 0 ++
          ((((writeParts ⟨1, 1⟩ (fun l => if l.length = 65 then 2 else 1) initSp
            [[5, 6]]).2.take 1).map Prod.fst).flatten)))) ∧
    ((writeParts ⟨1, 1⟩ (fun l => if l.length = 65 then 2 else 1) initSp [[5, 6]]).1.chunk ≠ [] ∧
      (closeSp ⟨1, 1⟩ (fun l => if l.length = 65 then 2 else 1)
        (writeParts ⟨1, 1⟩ (fun l => if l.length = 65 then 2 else 1) initSp [[5, 6]]).1).2 =
        [([6], 0)]) := by
  refine ⟨⟨by decide, ?_⟩, by decide, ?_⟩
  · exact ((chunk_levels ⟨1, 1⟩ (fun l => if l.length = 65 then 2 else 1) [[5, 6]]).1 0 [5] 0
      (by decide)).1
  · have := (chunk_levels ⟨1, 1⟩ (fun l => if l.length = 65 then 2 else 1) [[5, 6]]).2
      (by decide)
    rw [this]
    decide

/-- C7 (counterexample).  With `min_size = 5 > max_size = 2` and a digest
with no trailing zero bits, five bytes are emitted as a single chunk of
length 5, which exceeds the positive `max_size = 2`: the minimum-size check
(step 3) suppresses the max-size check, so the claim as stated fails. -/
theorem max_size_violated :
    splitMax ⟨5, 13, 2⟩ (fun _ => 1) [0, 0, 0, 0, 0] = [([0, 0, 0, 0, 0], 0)] ∧
      0 < (2 : Nat) ∧ ¬(([0, 0, 0, 0, 0] : List Nat).length ≤ 2) := by
  refine ⟨?_, by omega, by simp⟩
  rfl

theorem runMax_bound (c : SpMaxCfg) (d : Digest)
    (hpos : 0 < c.maxSize) (hminmax : c.minSize ≤ c.maxSize) :
    ∀ (bs : List Nat) (st : SpState), st.chunk.length < c.maxSize →
      (runMax c d st bs).1.chunk.length < c.maxSize ∧
        ∀ p ∈ (runMax c d st bs).2, p.1.length ≤ c.maxSize := by
  intro bs
  induction bs with
  | nil =>
    intro st hst
    exact ⟨hst, by simp [runMax]⟩
  | cons b tl ih =>
    intro st hst
    rcases hs : stepMax c d st b with ⟨st1, e⟩
    have hlen : (st.chunk ++ [b]).length = st.chunk.length + 1 := by simp
    have hstep : (st1.chunk.length < c.maxSize ∧ e = none) ∨
        (∃ lv, e = some (st.chunk ++ [b], lv) ∧ st1.chunk = [] ∧
          (st.chunk ++ [b]).length ≤ c.maxSize) := by
      unfold stepMax at hs
      by_cases h1 : (st.chunk ++ [b]).length < c.minSize
      · rw [if_pos h1] at hs
        left
        refine ⟨?_, (Prod.mk.injEq _ _ _ _ ▸ hs).2.symm⟩
        have := (Prod.mk.injEq _ _ _ _ ▸ hs).1
        rw [← this]
        show (st.chunk ++ [b]).length < c.maxSize
        omega
      · rw [if_neg h1] at hs
        by_cases h2 : c.splitBits ≤ tz32 (d (st.rolled ++ [b]))
        · rw [if_pos h2] at hs
          right
          refine ⟨_, (Prod.mk.injEq _ _ _ _ ▸ hs).2.symm, ?_, ?_⟩
          · have := (Prod.mk.injEq _ _ _ _ ▸ hs).1
            rw [← this]
          · omega
        · rw [if_neg h2] at hs
          by_cases h3 : 0 < c.maxSize ∧ c.maxSize ≤ (st.chunk ++ [b]).length
          · rw [if_pos h3] at hs
            right
            refine ⟨_, (Prod.mk.injEq _ _ _ _ ▸ hs).2.symm, ?_, ?_⟩
            · have := (Prod.mk.injEq _ _ _ _ ▸ hs).1
              rw [← this]
            · omega
          · rw [if_neg h3] at hs
            left
            refine ⟨?_, (Prod.mk.injEq _ _ _ _ ▸ hs).2.symm⟩
            have := (Prod.mk.injEq _ _ _ _ ▸ hs).1
            rw [← this]
            have h4 : ¬ c.maxSize ≤ (st.chunk ++ [b]).length := fun hle => h3 ⟨hpos, hle⟩
            show (st.chunk ++ [b]).length < c.maxSize
            omega
    rcases hstep with ⟨hlt, he⟩ | ⟨lv, he, hch, hle⟩
    · subst he
      simp only [runMax, hs]
      exact ih st1 hlt
    · subst he
      simp only [runMax, hs]
      have h1 := ih st1 (by rw [hch]; simpa using hpos)
      refine ⟨h1.1, ?_⟩
      intro p hp
      rcases List.mem_cons.mp hp with hp | hp
      · subst hp
        exact hle
      · exact h1.2 p hp

/-- C7 (amended, spec-modelled).  The max-size-capable splitter variant has
a `max_size` knob defaulting to 0 (unbounded); for every input and every
configuration with `0 < max_size` and `min_size ≤ max_size`, no emitted
chunk (forced cuts and the final `Close` flush included) is longer than
`max_size`. -/
theorem max_size_bound (c : SpMaxCfg) (d : Digest) (bytes : List Nat)
    (hpos : 0 < c.maxSize) (hminmax : c.minSize ≤ c.maxSize) :
    ∀ p ∈ splitMax c d bytes, p.1.length ≤ c.maxSize := by
  intro p hp
  have h := runMax_bound c d hpos hminmax bytes initSp (by simpa [initSp] using hpos)
  unfold splitMax at hp
  rcases List.mem_append.mp hp with hp | hp
  · exact h.2 p hp
  · unfold closeMax at hp
    by_cases hc : (runMax c d initSp bytes).1.chunk = []
    · rw [if_pos hc] at hp
      simp at hp
    · rw [if_neg hc] at hp
      simp only [List.mem_singleton] at hp
      subst hp
      have := h.1
      show (runMax c d initSp bytes).1.chunk.length ≤ c.maxSize
      omega

/-- Witness for `max_size_bound`: with `min_size = 2 ≤ max_size = 3` and a
digest that never fires, the run forces one cut at 3 bytes and flushes the
2-byte remainder, all within the cap. -/
theorem max_size_bound_w :
    (0 < (3 : Nat) ∧ (2 : Nat) ≤ 3) ∧
      ∀ p ∈ splitMax ⟨2, 13, 3⟩ (fun _ => 1) [7, 8, 9, 1, 2], p.1.length ≤ (3 : Nat) :=
  ⟨⟨by omega, by omega⟩,
    max_size_bound ⟨2, 13, 3⟩ (fun _ => 1) [7, 8, 9, 1, 2] (by decide) (by decide)⟩

theorem exmap_error {ε α β : Type} (f : α → β) (e : ε) :
    Except.map f (.error e) = (.error e : Except ε β) := rfl

theorem exmap_ok {ε α β : Type} (f : α → β) (x : α) :
    Except.map f (.ok x) = (.ok (f x) : Except ε β) := rfl

theorem lastF_mem : ∀ (l : List FNode) (x : FNode), lastF x l ∈ x :: l := by
  intro l
  induction l with
  | nil => intro x; simp [lastF]
  | cons y ys ih =>
    intro x
    simp only [lastF]
    exact List.mem_cons_of_mem x (ih y)

theorem lastF_id_congr : ∀ (l : List FNode) (a b : FNode), a.id = b.id →
    (lastF a l).id = (lastF b l).id := by
  intro l
  cases l with
  | nil => intro a b h; exact h
  | cons y ys => intro a b _; rfl

/-- Freshness discipline of the cascade loop of `Add`: given distinct node
ids below the allocator, the recorded `F` arguments have distinct ids, each
either a pre-existing open node or a freshly allocated top; an error is
returned exactly as produced by the last recorded invocation; and on
success all invocations succeeded and the new levels carry distinct ids
below the new allocator, none of them already consumed by an invocation. -/
theorem cascadeF_spec {ε : Type} (F : FNode → Except ε GN) :
    ∀ (lv : Nat) (cur : FNode) (rest : List FNode) (nid : Nat),
      (((cur :: rest).map FNode.id).Nodup) →
      (∀ i ∈ (cur :: rest).map FNode.id, i < nid) →
      (((cascadeF F cur rest lv nid).1.map FNode.id).Nodup ∧
       (∀ i ∈ (cascadeF F cur rest lv nid).1.map FNode.id,
          i ∈ (cur :: rest).map FNode.id ∨ nid ≤ i) ∧
       (∀ e, (cascadeF F cur rest lv nid).2 = .error e →
          ∃ n, (cascadeF F cur rest lv nid).1.getLast? = some n ∧ F n = .error e) ∧
       (∀ ls nid2, (cascadeF F cur rest lv nid).2 = .ok (ls, nid2) →
          (∀ n ∈ (cascadeF F cur rest lv nid).1, ∃ g, F n = .ok g) ∧
          ((ls.map FNode.id).Nodup) ∧
          (∀ i ∈ ls.map FNode.id,
            i ∈ (cur :: rest).map FNode.id ∨ (nid ≤ i ∧ i < nid2)) ∧
          (∀ i ∈ (cascadeF F cur rest lv nid).1.map FNode.id,
            i ∈ (cur :: rest).map FNode.id ∨ (nid ≤ i ∧ i < nid2)) ∧
          nid ≤ nid2 ∧
          (∀ i ∈ (cascadeF F cur rest lv nid).1.map FNode.id, i ∉ ls.map FNode.id))) := by
  intro lv
  induction lv with
  | zero =>
    intro cur rest nid hnd hlt
    refine ⟨by simp [cascadeF], by simp [cascadeF], by simp [cascadeF], ?_⟩
    intro ls nid2 hok
    simp only [cascadeF, Except.ok.injEq, Prod.mk.injEq] at hok
    obtain ⟨hls, hnid⟩ := hok
    subst hls
    subst hnid
    refine ⟨by simp [cascadeF], hnd, ?_, by simp [cascadeF], Nat.le_refl _, by simp [cascadeF]⟩
    intro i hi
    exact Or.inl hi
  | succ lv ih =>
    intro cur rest nid hnd hlt
    cases rest with
    | nil =>
      rcases hF : F cur with e | g
      · simp only [cascadeF, hF]
        refine ⟨by simp, ?_, ?_, by simp⟩
        · intro i hi
          simp only [List.map_cons, List.map_nil, List.mem_singleton] at hi
          subst hi
          exact Or.inl (by simp)
        · intro e2 he2
          simp only [Except.error.injEq] at he2
          subst he2
          exact ⟨cur, rfl, hF⟩
      · have hnd1 : (([(⟨[g], [], cur.size, 0, nid⟩ : FNode)]).map FNode.id).Nodup := by simp
        have hlt1 : ∀ i ∈ ([(⟨[g], [], cur.size, 0, nid⟩ : FNode)]).map FNode.id,
            i < nid + 2 := by
          simp only [List.map_cons, List.map_nil, List.mem_singleton]
          omega
        obtain ⟨ihA, ihB, ihE, ihO⟩ := ih (⟨[g], [], cur.size, 0, nid⟩ : FNode) [] (nid + 2) hnd1 hlt1
        have hcurlt : cur.id < nid := hlt cur.id (by simp)
        simp only [cascadeF, hF]
        refine ⟨?_, ?_, ?_, ?_⟩
        · simp only [List.map_cons, List.nodup_cons]
          refine ⟨?_, ihA⟩
          intro hmem
          rcases ihB cur.id hmem with h | h
          · simp only [List.map_cons, List.map_nil, List.mem_singleton] at h
            omega
          · omega
        · intro i hi
          simp only [List.map_cons, List.mem_cons] at hi
          rcases hi with hi | hi
          · subst hi
            exact Or.inl (by simp)
          · rcases ihB i hi with h | h
            · simp only [List.map_cons, List.map_nil, List.mem_singleton] at h
              right
              omega
            · right
              omega
        · intro e2 he2
          rcases hin : (cascadeF F (⟨[g], [], cur.size, 0, nid⟩ : FNode) [] lv (nid + 2)).2
            with e3 | p
          · rw [hin] at he2
            rw [exmap_error] at he2
            simp only [Except.error.injEq] at he2
            subst he2
            obtain ⟨n, hn1, hn2⟩ := ihE e3 hin
            refine ⟨n, ?_, hn2⟩
            rw [getLast_cons_ne]
            · exact hn1
            · intro hnil
              rw [hnil] at hn1
              exact Option.noConfusion hn1
          · rw [hin] at he2
            rw [exmap_ok] at he2
            exact Except.noConfusion he2
        · intro ls nid2 hok
          rcases hin : (cascadeF F (⟨[g], [], cur.size, 0, nid⟩ : FNode) [] lv (nid + 2)).2
            with e3 | p
          · rw [hin] at hok
            rw [exmap_error] at hok
            exact Except.noConfusion hok
          · rw [hin] at hok
            rw [exmap_ok] at hok
            simp only [Except.ok.injEq, Prod.mk.injEq] at hok
            obtain ⟨hls, hnid2⟩ := hok
            obtain ⟨ihO1, ihO2, ihO3, ihO4, ihO5, ihO6⟩ := ihO p.1 p.2 (by rw [hin])
            subst hnid2
            refine ⟨?_, ?_, ?_, ?_, by omega, ?_⟩
            · intro n hn
              rcases List.mem_cons.mp hn with hn | hn
              · subst hn
                exact ⟨g, hF⟩
              · exact ihO1 n hn
            · rw [← hls]
              simp only [List.map_cons, List.nodup_cons]
              refine ⟨?_, ihO2⟩
              intro hmem
              rcases ihO3 _ hmem with h | h
              · simp only [List.map_cons, List.map_nil, List.mem_singleton] at h
                omega
              · omega
            · intro i hi
              rw [← hls] at hi
              simp only [List.map_cons, List.mem_cons] at hi
              rcases hi with hi | hi
              · subst hi
                right
                omega
              · rcases ihO3 i hi with h | h
                · simp only [List.map_cons, List.map_nil, List.mem_singleton] at h
                  right
                  omega
                · right
                  omega
            · intro i hi
              simp only [List.map_cons, List.mem_cons] at hi
              rcases hi with hi | hi
              · subst hi
                exact Or.inl (by simp)
              · rcases ihO4 i hi with h | h
                · simp only [List.map_cons, List.map_nil, List.mem_singleton] at h
                  right
                  omega
                · right
                  omega
            · intro i hi
              rw [← hls]
              simp only [List.map_cons, List.mem_cons] at hi ⊢
              intro hcon
              rcases hi with hi | hi
              · subst hi
                rcases hcon with h | h
                · omega
                · rcases ihO3 _ h with h2 | h2
                  · simp only [List.map_cons, List.map_nil, List.mem_singleton] at h2
                    omega
                  · omega
              · rcases hcon with h | h
                · rcases ihO4 i hi with h2 | h2
                  · simp only [List.map_cons, List.map_nil, List.mem_singleton] at h2
                    omega
                  · omega
                · exact ihO6 i hi h
    | cons nx rs =>
      rcases hF : F cur with e | g
      · simp only [cascadeF, hF]
        refine ⟨by simp, ?_, ?_, by simp⟩
        · intro i hi
          simp only [List.map_cons, List.map_nil, List.mem_singleton] at hi
          subst hi
          exact Or.inl (by simp)
        · intro e2 he2
          simp only [Except.error.injEq] at he2
          subst he2
          exact ⟨cur, rfl, hF⟩
      · have hnd0 : ((nx :: rs).map FNode.id).Nodup := by
          rw [List.map_cons] at hnd
          exact hnd.of_cons
        have hnd1 : (((⟨nx.nodes ++ [g], nx.chunks, nx.size, nx.offset, nx.id⟩ : FNode) :: rs).map
            FNode.id).Nodup := hnd0
        have hlt1 : ∀ i ∈ (((⟨nx.nodes ++ [g], nx.chunks, nx.size, nx.offset, nx.id⟩ : FNode)
            :: rs).map FNode.id), i < nid + 1 := by
          intro i hi
          have := hlt i (by
            simp only [List.map_cons, List.mem_cons] at hi ⊢
            tauto)
          omega
        obtain ⟨ihA, ihB, ihE, ihO⟩ :=
          ih (⟨nx.nodes ++ [g], nx.chunks, nx.size, nx.offset, nx.id⟩ : FNode) rs (nid + 1)
            hnd1 hlt1
        have hcurlt : cur.id < nid := hlt cur.id (by simp)
        have hcurnotin : cur.id ∉ (nx :: rs).map FNode.id := by
          rw [List.map_cons] at hnd
          exact (List.nodup_cons.mp hnd).1
        simp only [cascadeF, hF]
        refine ⟨?_, ?_, ?_, ?_⟩
        · simp only [List.map_cons, List.nodup_cons]
          refine ⟨?_, ihA⟩
          intro hmem
          rcases ihB cur.id hmem with h | h
          · exact hcurnotin h
          · omega
        · intro i hi
          simp only [List.map_cons, List.mem_cons] at hi
          rcases hi with hi | hi
          · subst hi
            exact Or.inl (by simp)
          · rcases ihB i hi with h | h
            · left
              simp only [List.map_cons, List.mem_cons] at h ⊢
              tauto
            · right
              omega
        · intro e2 he2
          rcases hin : (cascadeF F (⟨nx.nodes ++ [g], nx.chunks, nx.size, nx.offset, nx.id⟩
              : FNode) rs lv (nid + 1)).2 with e3 | p
          · rw [hin] at he2
            rw [exmap_error] at he2
            simp only [Except.error.injEq] at he2
            subst he2
            obtain ⟨n, hn1, hn2⟩ := ihE e3 hin
            refine ⟨n, ?_, hn2⟩
            rw [getLast_cons_ne]
            · exact hn1
            · intro hnil
              rw [hnil] at hn1
              exact Option.noConfusion hn1
          · rw [hin] at he2
            rw [exmap_ok] at he2
            exact Except.noConfusion he2
        · intro ls nid2 hok
          rcases hin : (cascadeF F (⟨nx.nodes ++ [g], nx.chunks, nx.size, nx.offset, nx.id⟩
              : FNode) rs lv (nid + 1)).2 with e3 | p
          · rw [hin] at hok
            rw [exmap_error] at hok
            exact Except.noConfusion hok
          · rw [hin] at hok
            rw [exmap_ok] at hok
            simp only [Except.ok.injEq, Prod.mk.injEq] at hok
            obtain ⟨hls, hnid2⟩ := hok
            obtain ⟨ihO1, ihO2, ihO3, ihO4, ihO5, ihO6⟩ := ihO p.1 p.2 (by rw [hin])
            subst hnid2
            refine ⟨?_, ?_, ?_, ?_, by omega, ?_⟩
            · intro n hn
              rcases List.mem_cons.mp hn with hn | hn
              · subst hn
                exact ⟨g, hF⟩
              · exact ihO1 n hn
            · rw [← hls]
              simp only [List.map_cons, List.nodup_cons]
              refine ⟨?_, ihO2⟩
              intro hmem
              rcases ihO3 _ hmem with h | h
              · have hni : (nid : Nat) < nid := by
                  refine hlt nid ?_
                  simp only [List.map_cons, List.mem_cons] at h ⊢
                  tauto
                omega
              · omega
            · intro i hi
              rw [← hls] at hi
              simp only [List.map_cons, List.mem_cons] at hi
              rcases hi with hi | hi
              · subst hi
                right
                omega
              · rcases ihO3 i hi with h | h
                · left
                  simp only [List.map_cons, List.mem_cons] at h ⊢
                  tauto
                · right
                  omega
            · intro i hi
              simp only [List.map_cons, List.mem_cons] at hi
              rcases hi with hi | hi
              · subst hi
                exact Or.inl (by simp)
              · rcases ihO4 i hi with h | h
                · left
                  simp only [List.map_cons, List.mem_cons] at h ⊢
                  tauto
                · right
                  omega
            · intro i hi
              rw [← hls]
              simp only [List.map_cons, List.mem_cons] at hi ⊢
              intro hcon
              rcases hi with hi | hi
              · subst hi
                rcases hcon with h | h
                · omega
                · rcases ihO3 _ h with h2 | h2
                  · refine absurd ?_ hcurnotin
                    simp only [List.map_cons, List.mem_cons] at h2 ⊢
                    tauto
                  · omega
              · rcases hcon with h | h
                · rcases ihO4 i hi with h2 | h2
                  · simp only [List.map_cons, List.mem_cons] at h2
                    have hlti : i < nid := by
                      refine hlt i ?_
                      simp only [List.map_cons, List.mem_cons]
                      tauto
                    omega
                  · omega
                · exact ihO6 i hi h

theorem map_id_bump (bytes : List Nat) (l : List FNode) :
    ((l.map (fun n => (⟨n.nodes, n.chunks, n.size + bytes.length, n.offset, n.id⟩ : FNode))).map
      FNode.id) = l.map FNode.id := by
  rw [List.map_map]
  rfl

/-- Freshness and error discipline of a single `Add` with a non-nil
transform, relative to the builder state. -/
theorem addF_spec {ε : Type} (F : FNode → Except ε GN) (st : FSt) (bytes : List Nat) (lv : Nat)
    (hnd : (st.levels.map FNode.id).Nodup)
    (hlt : ∀ i ∈ st.levels.map FNode.id, i < st.nextId) :
    (((addF F st bytes lv).1.map FNode.id).Nodup) ∧
    (∀ i ∈ (addF F st bytes lv).1.map FNode.id,
       i ∈ st.levels.map FNode.id ∨ st.nextId ≤ i) ∧
    (∀ e, (addF F st bytes lv).2 = .error e →
       ∃ n, (addF F st bytes lv).1.getLast? = some n ∧ F n = .error e) ∧
    (∀ st1, (addF F st bytes lv).2 = .ok st1 →
       (∀ n ∈ (addF F st bytes lv).1, ∃ g, F n = .ok g) ∧
       (st1.levels.map FNode.id).Nodup ∧
       (∀ i ∈ st1.levels.map FNode.id,
          i ∈ st.levels.map FNode.id ∨ (st.nextId ≤ i ∧ i < st1.nextId)) ∧
       (∀ i ∈ (addF F st bytes lv).1.map FNode.id,
          i ∈ st.levels.map FNode.id ∨ (st.nextId ≤ i ∧ i < st1.nextId)) ∧
       st.nextId ≤ st1.nextId ∧
       (∀ i ∈ (addF F st bytes lv).1.map FNode.id, i ∉ st1.levels.map FNode.id)) := by
  rcases hlv : st.levels with _ | ⟨l0, rest⟩
  · have heq : addF F st bytes lv =
        ((cascadeF F (⟨[], [] ++ [bytes], 0 + bytes.length, 0, st.nextId⟩ : FNode) []
            lv (st.nextId + 1)).1,
          (cascadeF F (⟨[], [] ++ [bytes], 0 + bytes.length, 0, st.nextId⟩ : FNode) []
            lv (st.nextId + 1)).2.map (fun p => FSt.mk p.1 p.2)) := by
      simp only [addF, hlv, List.isEmpty_nil, if_true, List.map_cons, List.map_nil]
    obtain ⟨cA, cB, cE, cO⟩ := cascadeF_spec F lv
      (⟨[], [] ++ [bytes], 0 + bytes.length, 0, st.nextId⟩ : FNode) [] (st.nextId + 1)
      (by simp) (by simp)
    rw [heq]
    refine ⟨cA, ?_, ?_, ?_⟩
    · intro i hi
      rcases cB i hi with h | h
      · right
        simp only [List.map_cons, List.map_nil, List.mem_singleton] at h
        omega
      · right
        omega
    · intro e he
      rcases hin : (cascadeF F (⟨[], [] ++ [bytes], 0 + bytes.length, 0, st.nextId⟩ : FNode) []
          lv (st.nextId + 1)).2 with e3 | p
      · rw [hin] at he
        rw [exmap_error] at he
        simp only [Except.error.injEq] at he
        subst he
        exact cE e3 hin
      · rw [hin] at he
        rw [exmap_ok] at he
        exact Except.noConfusion he
    · intro st1 hok
      rcases hin : (cascadeF F (⟨[], [] ++ [bytes], 0 + bytes.length, 0, st.nextId⟩ : FNode) []
          lv (st.nextId + 1)).2 with e3 | p
      · rw [hin] at hok
        rw [exmap_error] at hok
        exact Except.noConfusion hok
      · rw [hin] at hok
        rw [exmap_ok] at hok
        simp only [Except.ok.injEq] at hok
        obtain ⟨cO1, cO2, cO3, cO4, cO5, cO6⟩ := cO p.1 p.2 (by rw [hin])
        subst hok
        dsimp only
        refine ⟨cO1, cO2, ?_, ?_, by omega, cO6⟩
      -- note: st1.levels = p.1, st1.nextId = p.2 definitionally
        · intro i hi
          rcases cO3 i hi with h | h
          · right
            simp only [List.map_cons, List.map_nil, List.mem_singleton] at h
            constructor
            · omega
            · have := cO5
              omega
          · right
            exact ⟨by omega, h.2⟩
        · intro i hi
          rcases cO4 i hi with h | h
          · right
            simp only [List.map_cons, List.map_nil, List.mem_singleton] at h
            refine ⟨by omega, ?_⟩
            have := cO5
            omega
          · right
            exact ⟨by omega, h.2⟩
  · rw [hlv] at hnd hlt
    have heq : addF F st bytes lv =
        ((cascadeF F (⟨l0.nodes, l0.chunks ++ [bytes], l0.size + bytes.length, l0.offset,
            l0.id⟩ : FNode)
            (rest.map (fun n =>
              (⟨n.nodes, n.chunks, n.size + bytes.length, n.offset, n.id⟩ : FNode)))
            lv st.nextId).1,
          (cascadeF F (⟨l0.nodes, l0.chunks ++ [bytes], l0.size + bytes.length, l0.offset,
            l0.id⟩ : FNode)
            (rest.map (fun n =>
              (⟨n.nodes, n.chunks, n.size + bytes.length, n.offset, n.id⟩ : FNode)))
            lv st.nextId).2.map (fun p => FSt.mk p.1 p.2)) := by
      simp [addF, hlv]
    have hids : (((⟨l0.nodes, l0.chunks ++ [bytes], l0.size + bytes.length, l0.offset,
        l0.id⟩ : FNode) :: rest.map (fun n =>
          (⟨n.nodes, n.chunks, n.size + bytes.length, n.offset, n.id⟩ : FNode))).map FNode.id)
        = (l0 :: rest).map FNode.id := by
      simp only [List.map_cons, map_id_bump]
    obtain ⟨cA, cB, cE, cO⟩ := cascadeF_spec F lv
      (⟨l0.nodes, l0.chunks ++ [bytes], l0.size + bytes.length, l0.offset, l0.id⟩ : FNode)
      (rest.map (fun n => (⟨n.nodes, n.chunks, n.size + bytes.length, n.offset, n.id⟩ : FNode)))
      st.nextId (by rw [hids]; exact hnd) (by rw [hids]; exact hlt)
    rw [heq]
    dsimp only
    rw [hids] at cB
    refine ⟨cA, cB, ?_, ?_⟩
    · intro e he
      rcases hin : (cascadeF F (⟨l0.nodes, l0.chunks ++ [bytes], l0.size + bytes.length,
          l0.offset, l0.id⟩ : FNode)
          (rest.map (fun n =>
            (⟨n.nodes, n.chunks, n.size + bytes.length, n.offset, n.id⟩ : FNode)))
          lv st.nextId).2 with e3 | p
      · rw [hin] at he
        rw [exmap_error] at he
        simp only [Except.error.injEq] at he
        subst he
        exact cE e3 hin
      · rw [hin] at he
        rw [exmap_ok] at he
        exact Except.noConfusion he
    · intro st1 hok
      rcases hin : (cascadeF F (⟨l0.nodes, l0.chunks ++ [bytes], l0.size + bytes.length,
          l0.offset, l0.id⟩ : FNode)
          (rest.map (fun n =>
            (⟨n.nodes, n.chunks, n.size + bytes.length, n.offset, n.id⟩ : FNode)))
          lv st.nextId).2 with e3 | p
      · rw [hin] at hok
        rw [exmap_error] at hok
        exact Except.noConfusion hok
      · rw [hin] at hok
        rw [exmap_ok] at hok
        simp only [Except.ok.injEq] at hok
        obtain ⟨cO1, cO2, cO3, cO4, cO5, cO6⟩ := cO p.1 p.2 (by rw [hin])
        rw [hids] at cO3 cO4
        subst hok
        exact ⟨cO1, cO2, cO3, cO4, cO5, cO6⟩

/-- Discipline of the finalization loop of `Root`: each of the open nodes
below the top is passed to `F` exactly once, in order; the resulting top
keeps the identity of the original top and is not among the arguments
already consumed. -/
theorem attachUpF_spec {ε : Type} (F : FNode → Except ε GN) :
    ∀ (rest : List FNode) (cur : FNode),
      (((cur :: rest).map FNode.id).Nodup) →
      (((attachUpF F cur rest).1.map FNode.id).Nodup ∧
       (∀ i ∈ (attachUpF F cur rest).1.map FNode.id, i ∈ (cur :: rest).map FNode.id) ∧
       (∀ e, (attachUpF F cur rest).2 = .error e →
          ∃ n, (attachUpF F cur rest).1.getLast? = some n ∧ F n = .error e) ∧
       (∀ top, (attachUpF F cur rest).2 = .ok top →
          (∀ n ∈ (attachUpF F cur rest).1, ∃ g, F n = .ok g) ∧
          top.id = (lastF cur rest).id ∧
          top.id ∉ (attachUpF F cur rest).1.map FNode.id)) := by
  intro rest
  induction rest with
  | nil =>
    intro cur _
    refine ⟨by simp [attachUpF], by simp [attachUpF], by simp [attachUpF], ?_⟩
    intro top htop
    simp only [attachUpF, Except.ok.injEq] at htop
    subst htop
    exact ⟨by simp [attachUpF], rfl, by simp [attachUpF]⟩
  | cons nx rs ih =>
    intro cur hnd
    rcases hF : F cur with e | g
    · simp only [attachUpF, hF]
      refine ⟨by simp, ?_, ?_, by simp⟩
      · intro i hi
        simp only [List.map_cons, List.map_nil, List.mem_singleton] at hi
        subst hi
        simp
      · intro e2 he2
        simp only [Except.error.injEq] at he2
        subst he2
        exact ⟨cur, rfl, hF⟩
    · have hnd1 : (((⟨nx.nodes ++ [g], nx.chunks, nx.size, nx.offset, nx.id⟩ : FNode)
          :: rs).map FNode.id).Nodup := by
        rw [List.map_cons] at hnd
        exact hnd.of_cons
      have hcurnotin : cur.id ∉ (nx :: rs).map FNode.id := by
        rw [List.map_cons] at hnd
        exact (List.nodup_cons.mp hnd).1
      obtain ⟨ihA, ihB, ihE, ihO⟩ :=
        ih (⟨nx.nodes ++ [g], nx.chunks, nx.size, nx.offset, nx.id⟩ : FNode) hnd1
      simp only [attachUpF, hF]
      refine ⟨?_, ?_, ?_, ?_⟩
      · simp only [List.map_cons, List.nodup_cons]
        refine ⟨?_, ihA⟩
        intro hmem
        have := ihB cur.id hmem
        simp only [List.map_cons, List.mem_cons] at this
        rcases this with h | h
        · exact hcurnotin (by simp only [List.map_cons, List.mem_cons]; exact Or.inl h)
        · exact hcurnotin (by simp only [List.map_cons, List.mem_cons]; exact Or.inr h)
      · intro i hi
        simp only [List.map_cons, List.mem_cons] at hi ⊢
        rcases hi with hi | hi
        · exact Or.inl hi
        · have := ihB i hi
          simp only [List.map_cons, List.mem_cons] at this
          tauto
      · intro e2 he2
        obtain ⟨n, hn1, hn2⟩ := ihE e2 he2
        refine ⟨n, ?_, hn2⟩
        rw [getLast_cons_ne]
        · exact hn1
        · intro hnil
          rw [hnil] at hn1
          exact Option.noConfusion hn1
      · intro top htop
        obtain ⟨ihO1, ihO2, ihO3⟩ := ihO top htop
        refine ⟨?_, ?_, ?_⟩
        · intro n hn
          rcases List.mem_cons.mp hn with hn | hn
          · subst hn
            exact ⟨g, hF⟩
          · exact ihO1 n hn
        · rw [ihO2]
          exact lastF_id_congr rs
            (⟨nx.nodes ++ [g], nx.chunks, nx.size, nx.offset, nx.id⟩ : FNode) nx rfl
        · simp only [List.map_cons, List.mem_cons]
          intro hcon
          rcases hcon with h | h
          · refine hcurnotin ?_
            rw [← h, ihO2,
              lastF_id_congr rs (⟨nx.nodes ++ [g], nx.chunks, nx.size, nx.offset, nx.id⟩ : FNode)
                nx rfl]
            have hm := lastF_mem rs nx
            rcases List.mem_cons.mp hm with hm | hm
            · rw [hm]
              simp
            · simp only [List.map_cons, List.mem_cons]
              right
              exact List.mem_map_of_mem FNode.id hm
          · exact ihO3 h

/-- Discipline of the top-node handling at the end of `Root`: at most one
further `F` invocation, on the top node itself, and only when it has more
than one child. -/
theorem finishTop_spec {ε : Type} (F : FNode → Except ε GN) (top : FNode) :
    (((finishTop F top).1.map FNode.id).Nodup ∧
     (∀ i ∈ (finishTop F top).1.map FNode.id, i = top.id) ∧
     (∀ e, (finishTop F top).2 = .error e →
        ∃ n, (finishTop F top).1.getLast? = some n ∧ F n = .error e) ∧
     (∀ res, (finishTop F top).2 = .ok res → ∀ n ∈ (finishTop F top).1, ∃ g, F n = .ok g)) := by
  unfold finishTop
  by_cases htop : 1 < top.nodes.length
  · rw [if_pos htop]
    rcases hF : F top with e | g
    · rw [exmap_error]
      refine ⟨by simp, by simp, ?_, by simp⟩
      intro e2 he2
      simp only [Except.error.injEq] at he2
      subst he2
      exact ⟨top, rfl, hF⟩
    · rw [exmap_ok]
      refine ⟨by simp, by simp, by simp, ?_⟩
      intro res _ n hn
      simp only [List.mem_singleton] at hn
      subst hn
      exact ⟨g, hF⟩
  · rw [if_neg htop]
    rcases hn : top.nodes with _ | ⟨g, gs⟩
    · exact ⟨by simp, by simp, by simp, by simp⟩
    · cases gs with
      | nil => exact ⟨by simp, by simp, by simp, by simp⟩
      | cons g2 gs2 => exact ⟨by simp, by simp, by simp, by simp⟩

/-- Discipline of `Root` with a non-nil transform: every recorded `F`
argument is an open node of the final builder state, each consumed at most
once; errors are returned exactly as produced by the last invocation. -/
theorem rootF_spec {ε : Type} (F : FNode → Except ε GN) (st : FSt)
    (hnd : (st.levels.map FNode.id).Nodup) :
    (((rootF F st).1.map FNode.id).Nodup ∧
     (∀ i ∈ (rootF F st).1.map FNode.id, i ∈ st.levels.map FNode.id) ∧
     (∀ e, (rootF F st).2 = .error e →
        ∃ n, (rootF F st).1.getLast? = some n ∧ F n = .error e) ∧
     (∀ res, (rootF F st).2 = .ok res → ∀ n ∈ (rootF F st).1, ∃ g, F n = .ok g)) := by
  rcases hlv : st.levels with _ | ⟨l0, rest⟩
  · simp only [rootF, hlv]
    exact ⟨by simp, by simp, by simp, by simp⟩
  · cases rest with
    | nil =>
      simp only [rootF, hlv]
      rcases hF : F l0 with e | g
      · rw [exmap_error]
        refine ⟨by simp, by simp, ?_, by simp⟩
        intro e2 he2
        simp only [Except.error.injEq] at he2
        subst he2
        exact ⟨l0, rfl, hF⟩
      · rw [exmap_ok]
        refine ⟨by simp, by simp, by simp, ?_⟩
        intro res _ n hn
        simp only [List.mem_singleton] at hn
        subst hn
        exact ⟨g, hF⟩
    | cons nx rs =>
      rw [hlv] at hnd
      simp only [rootF, hlv]
      by_cases hce : l0.chunks.isEmpty
      · rw [if_pos hce]
        obtain ⟨fA, fB, fE, fO⟩ := finishTop_spec F (lastF nx rs)
        refine ⟨fA, ?_, fE, fO⟩
        intro i hi
        have := fB i hi
        subst this
        have := lastF_mem rs nx
        simp only [List.map_cons, List.mem_cons]
        rcases List.mem_cons.mp this with hm | hm
        · right
          left
          rw [hm]
        · right
          right
          exact List.mem_map_of_mem FNode.id hm
      · rw [if_neg hce]
        obtain ⟨aA, aB, aE, aO⟩ := attachUpF_spec F (nx :: rs) l0 hnd
        rcases hcalls : attachUpF F l0 (nx :: rs) with ⟨calls, r2⟩
        rw [hcalls] at aA aB aE aO
        rcases r2 with e | top
        · dsimp only
          refine ⟨aA, aB, ?_, by simp⟩
          intro e2 he2
          simp only [Except.error.injEq] at he2
          subst he2
          exact aE _ rfl
        · dsimp only
          obtain ⟨aO1, aO2, aO3⟩ := aO top rfl
          obtain ⟨fA, fB, fE, fO⟩ := finishTop_spec F top
          refine ⟨?_, ?_, ?_, ?_⟩
          · rw [List.map_append]
            rw [List.nodup_append]
            refine ⟨aA, fA, ?_⟩
            intro i hi hj
            have := fB i hj
            subst this
            exact aO3 hi
          · intro i hi
            rw [List.map_append, List.mem_append] at hi
            rcases hi with hi | hi
            · exact aB i hi
            · have := fB i hi
              subst this
              rw [aO2]
              have hm := lastF_mem (nx :: rs) l0
              exact List.mem_map_of_mem FNode.id hm
          · intro e2 he2
            obtain ⟨n, hn1, hn2⟩ := fE e2 he2
            refine ⟨n, ?_, hn2⟩
            rw [getLast_append_ne]
            · exact hn1
            · intro hnil
              rw [hnil] at hn1
              exact Option.noConfusion hn1
          · intro res hres n hn
            rcases List.mem_append.mp hn with hn | hn
            · exact aO1 n hn
            · exact fO res hres n hn

/-- Freshness and error discipline of a whole sequence of `Add` calls with
a non-nil transform. -/
theorem addAllF_spec {ε : Type} (F : FNode → Except ε GN) :
    ∀ (ps : List (List Nat × Nat)) (st : FSt),
      (st.levels.map FNode.id).Nodup →
      (∀ i ∈ st.levels.map FNode.id, i < st.nextId) →
      (((addAllF F st ps).1.map FNode.id).Nodup ∧
       (∀ i ∈ (addAllF F st ps).1.map FNode.id,
          i ∈ st.levels.map FNode.id ∨ st.nextId ≤ i) ∧
       (∀ e, (addAllF F st ps).2 = .error e →
          ∃ n, (addAllF F st ps).1.getLast? = some n ∧ F n = .error e) ∧
       (∀ st1, (addAllF F st ps).2 = .ok st1 →
          (∀ n ∈ (addAllF F st ps).1, ∃ g, F n = .ok g) ∧
          (st1.levels.map FNode.id).Nodup ∧
          (∀ i ∈ st1.levels.map FNode.id,
            i ∈ st.levels.map FNode.id ∨ (st.nextId ≤ i ∧ i < st1.nextId)) ∧
          (∀ i ∈ (addAllF F st ps).1.map FNode.id,
            i ∈ st.levels.map FNode.id ∨ (st.nextId ≤ i ∧ i < st1.nextId)) ∧
          st.nextId ≤ st1.nextId ∧
          (∀ i ∈ (addAllF F st ps).1.map FNode.id, i ∉ st1.levels.map FNode.id))) := by
  intro ps
  induction ps with
  | nil =>
    intro st hnd hlt
    refine ⟨by simp [addAllF], by simp [addAllF], by simp [addAllF], ?_⟩
    intro st1 hok
    simp only [addAllF, Except.ok.injEq] at hok
    subst hok
    exact ⟨by simp [addAllF], hnd, fun i hi => Or.inl hi, by simp [addAllF],
      Nat.le_refl _, by simp [addAllF]⟩
  | cons p tl ih =>
    intro st hnd hlt
    obtain ⟨dA, dB, dE, dO⟩ := addF_spec F st p.1 p.2 hnd hlt
    rcases hadd : addF F st p.1 p.2 with ⟨calls0, r0⟩
    rw [hadd] at dA dB dE dO
    rcases r0 with e | st1
    · simp only [addAllF, hadd]
      refine ⟨dA, dB, ?_, by simp⟩
      intro e2 he2
      simp only [Except.error.injEq] at he2
      subst he2
      exact dE _ rfl
    · obtain ⟨dO1, dO2, dO3, dO4, dO5, dO6⟩ := dO st1 rfl
      have hlt1 : ∀ i ∈ st1.levels.map FNode.id, i < st1.nextId := by
        intro i hi
        rcases dO3 i hi with h | h
        · have := hlt i h
          omega
        · omega
      obtain ⟨iA, iB, iE, iO⟩ := ih st1 dO2 hlt1
      simp only [addAllF, hadd]
      refine ⟨?_, ?_, ?_, ?_⟩
      · rw [List.map_append, List.nodup_append]
        refine ⟨dA, iA, ?_⟩
        intro i hi hj
        rcases iB i hj with h | h
        · exact dO6 i hi h
        · rcases dO4 i hi with h2 | h2
          · have := hlt i h2
            omega
          · omega
      · intro i hi
        rw [List.map_append, List.mem_append] at hi
        rcases hi with hi | hi
        · rcases dB i hi with h | h
          · exact Or.inl h
          · exact Or.inr h
        · rcases iB i hi with h | h
          · rcases dO3 i h with h2 | h2
            · exact Or.inl h2
            · right
              omega
          · right
            omega
      · intro e he
        obtain ⟨n, hn1, hn2⟩ := iE e he
        refine ⟨n, ?_, hn2⟩
        rw [getLast_append_ne]
        · exact hn1
        · intro hnil
          rw [hnil] at hn1
          exact Option.noConfusion hn1
      · intro st2 hok
        obtain ⟨iO1, iO2, iO3, iO4, iO5, iO6⟩ := iO st2 hok
        refine ⟨?_, iO2, ?_, ?_, by omega, ?_⟩
        · intro n hn
          rcases List.mem_append.mp hn with hn | hn
          · exact dO1 n hn
          · exact iO1 n hn
        · intro i hi
          rcases iO3 i hi with h | h
          · rcases dO3 i h with h2 | h2
            · exact Or.inl h2
            · right
              omega
          · right
            omega
        · intro i hi
          rw [List.map_append, List.mem_append] at hi
          rcases hi with hi | hi
          · rcases dO4 i hi with h | h
            · exact Or.inl h
            · right
              omega
          · rcases iO4 i hi with h | h
            · rcases dO3 i h with h2 | h2
              · exact Or.inl h2
              · right
                omega
            · right
              omega
        · intro i hi hcon
          rw [List.map_append, List.mem_append] at hi
          rcases hi with hi | hi
          · rcases iO3 i hcon with h | h
            · exact dO6 i hi h
            · rcases dO4 i hi with h2 | h2
              · have := hlt i h2
                omega
              · omega
          · exact iO6 i hi hcon

/-- C8.  With a non-nil transform `F` (modelled over ghost allocation
identities standing for Go pointer identity), any run of `Add` calls
followed by `Root` invokes `F` at most once per node — the recorded
arguments have pairwise-distinct identities, covering each node attached as
a child at the moment of attachment and the finalized top — and if an
invocation of `F` returns an error, the enclosing `Add` or `Root` returns
that error immediately: the failing invocation is the last one recorded,
and on a successful run every recorded invocation succeeded. -/
theorem transform_called_once (ε : Type) (F : FNode → Except ε GN)
    (pairs : List (List Nat × Nat)) :
    (((runF F pairs).1.map FNode.id).Nodup) ∧
    (∀ e, (runF F pairs).2 = .error e →
       ∃ n, (runF F pairs).1.getLast? = some n ∧ F n = .error e) ∧
    (∀ res, (runF F pairs).2 = .ok res → ∀ n ∈ (runF F pairs).1, ∃ g, F n = .ok g) := by
  obtain ⟨aA, aB, aE, aO⟩ := addAllF_spec F pairs ⟨[], 0⟩ (by simp) (by simp)
  rcases hadd : addAllF F ⟨[], 0⟩ pairs with ⟨calls, r⟩
  rw [hadd] at aA aB aE aO
  rcases r with e | st
  · simp only [runF, hadd]
    refine ⟨aA, ?_, by simp⟩
    intro e2 he2
    simp only [Except.error.injEq] at he2
    subst he2
    exact aE _ rfl
  · obtain ⟨aO1, aO2, aO3, aO4, aO5, aO6⟩ := aO st rfl
    obtain ⟨rA, rB, rE, rO⟩ := rootF_spec F st aO2
    simp only [runF, hadd]
    refine ⟨?_, ?_, ?_⟩
    · rw [List.map_append, List.nodup_append]
      refine ⟨aA, rA, ?_⟩
      intro i hi hj
      have := rB i hj
      exact aO6 i hi this
    · intro e he
      obtain ⟨n, hn1, hn2⟩ := rE e he
      refine ⟨n, ?_, hn2⟩
      rw [getLast_append_ne]
      · exact hn1
      · intro hnil
        rw [hnil] at hn1
        exact Option.noConfusion hn1
    · intro res hres n hn
      rcases List.mem_append.mp hn with hn | hn
      · exact aO1 n hn
      · exact rO res hres n hn

/-- Witness for `transform_called_once`: a transform failing on the very
first node makes the run stop with that error as its last recorded
invocation, and an always-succeeding transform yields a successful run
whose every recorded invocation succeeded. -/
theorem transform_called_once_w :
    (((runF (fun n => if n.id = 0 then Except.error (7 : Nat)
        else Except.ok (GN.mk n.offset n.size n.nodes)) [([1], 1)]).1.map FNode.id).Nodup) ∧
    (∃ n, (runF (fun n => if n.id = 0 then Except.error (7 : Nat)
        else Except.ok (GN.mk n.offset n.size n.nodes)) [([1], 1)]).1.getLast? = some n ∧
      (if n.id = 0 then Except.error (7 : Nat) else Except.ok (GN.mk n.offset n.size n.nodes))
        = Except.error 7) ∧
    (∀ n ∈ (runF (fun n => Except.ok (GN.mk n.offset n.size n.nodes) :
        FNode → Except Nat GN) [([1], 1)]).1,
      ∃ g, (Except.ok (GN.mk n.offset n.size n.nodes) : Except Nat GN) = Except.ok g) :=
  ⟨(transform_called_once Nat (fun n => if n.id = 0 then Except.error 7
      else Except.ok (GN.mk n.offset n.size n.nodes)) [([1], 1)]).1,
    (transform_called_once Nat (fun n => if n.id = 0 then Except.error 7
      else Except.ok (GN.mk n.offset n.size n.nodes)) [([1], 1)]).2.1 7 rfl,
    (transform_called_once Nat (fun n => Except.ok (GN.mk n.offset n.size n.nodes))
      [([1], 1)]).2.2 (some (GN.mk 0 1 [])) rfl⟩

end Hashsplit
